import Mathlib

/-!
Verification of the CPU-scheduling simulators in simulate.py.

The development shallowly embeds the data model (Task, TimelineSegment),
the Round-Robin simulator (simulate_rr), the SRTF simulator
(simulate_srtf) and the shared metrics computation of the source file.
Python integers are modelled as Int, optional fields as Option Int, the
float averages as rationals.  Mutable Task objects are modelled by a list
of task values together with positional indices standing for object
identity (the queue of the RR simulator and the scan of the SRTF
simulator operate on indices, exactly as the Python lists of references
operate on objects).  A separate heap model at the end of the file makes
the object store explicit in order to state the frame property of the
two simulators.
-/

namespace Sched

/-- Task record of simulate.py: immutable sampled fields plus the mutable
runtime state used by one simulation run. -/
structure Task where
  pid : Int
  nombre : String
  t_llegada : Int
  burst : Int
  utime : Int
  stime : Int
  cpu_total : Int
  muestras : Int
  estado : String
  remaining : Int
  start_time : Option Int
  finish_time : Option Int
  context_switches : Int
deriving Repr, DecidableEq

/-- Construction of a Task as by the Python dataclass: the post-init hook
sets remaining to burst and clears the runtime fields. -/
def mkTask (pid : Int) (nombre : String) (t_llegada burst utime stime cpu_total muestras : Int) (estado : String) : Task :=
  { pid := pid, nombre := nombre, t_llegada := t_llegada, burst := burst,
    utime := utime, stime := stime, cpu_total := cpu_total,
    muestras := muestras, estado := estado,
    remaining := burst, start_time := none, finish_time := none,
    context_switches := 0 }

/-- Single execution slice of a process on the CPU. -/
structure TimelineSegment where
  pid : Int
  start : Int
  stop : Int
deriving Repr, DecidableEq

/-- Placeholder task value used as the default of positional lookups;
never reached for in-range indices. -/
def defaultTask : Task :=
  mkTask 0 "" 0 0 0 0 0 0 ""

/-- Positional read of a task list, standing for dereferencing one of the
Python object references. -/
def getT (l : List Task) (i : Nat) : Task :=
  l.getD i defaultTask

/-- Reset of the runtime fields performed at the start of each simulator
run on the deep copies. -/
def resetTask (t : Task) : Task :=
  { t with remaining := t.burst, start_time := none, finish_time := none,
           context_switches := 0 }

/-- Sort key comparison of simulate.py: lexicographic on the pair
(t_llegada, pid). -/
def taskKeyLE (a b : Task) : Bool :=
  decide (a.t_llegada < b.t_llegada) ||
    (decide (a.t_llegada = b.t_llegada) && decide (a.pid ≤ b.pid))

/-- Stable insertion into a list sorted by taskKeyLE. -/
def insertTask (t : Task) : List Task → List Task
  | [] => [t]
  | u :: us => if taskKeyLE t u then t :: u :: us else u :: insertTask t us

/-- Stable sort by the key (t_llegada, pid), modelling list.sort of
Python with that key. -/
def sortTasks : List Task → List Task
  | [] => []
  | t :: ts => insertTask t (sortTasks ts)

/-- End of the last segment of a timeline, 0 for the empty timeline; this
is the total_time of the metrics code. -/
def lastStop (tl : List TimelineSegment) : Int :=
  (tl.getLast?.map TimelineSegment.stop).getD 0

/-- Metrics bundle returned by both simulators.  The float averages of the
Python code are modelled as rationals. -/
structure Metrics where
  espera_promedio : ℚ
  turnaround_promedio : ℚ
  finalizacion_total : Int
  throughput : ℚ
  respuesta_promedio : ℚ
  context_switches : Int
  cpu_idle_time : Int
deriving Repr, DecidableEq

/-- Metrics computation shared (textually duplicated) by simulate_rr and
simulate_srtf: per-task waiting, turnaround and response accumulated over
the finished list, averaged over its length, with total_time the end of
the last segment and throughput guarded against division by zero. -/
def computeMetrics (finished : List Task) (timeline : List TimelineSegment) (cs : Int) : Metrics :=
  let n : Nat := finished.length
  let total_wait : Int := (finished.map (fun t => t.finish_time.getD 0 - t.t_llegada - t.burst)).sum
  let total_turnaround : Int := (finished.map (fun t => t.finish_time.getD 0 - t.t_llegada)).sum
  let total_response : Int := (finished.map (fun t => t.start_time.getD 0 - t.t_llegada)).sum
  let total_time : Int := lastStop timeline
  { espera_promedio := if n ≠ 0 then (total_wait : ℚ) / (n : ℚ) else 0,
    turnaround_promedio := if n ≠ 0 then (total_turnaround : ℚ) / (n : ℚ) else 0,
    finalizacion_total := total_time,
    throughput := if 0 < total_time then (n : ℚ) / (total_time : ℚ) else 0,
    respuesta_promedio := if n ≠ 0 then (total_response : ℚ) / (n : ℚ) else 0,
    context_switches := cs,
    cpu_idle_time := 0 }

/-- State of the Round-Robin loop: current values of the ready tasks, the
FIFO queue of indices standing for the Python references, the virtual
clock, the timeline built so far and the global switch counter. -/
structure RRState where
  tasks : List Task
  queue : List Nat
  time_now : Int
  timeline : List TimelineSegment
  context_switches : Int
deriving Repr

/-- One iteration of the Round-Robin loop body of simulate_rr, given the
dequeued index i and the rest of the queue: set start_time if unset, run
for min quantum remaining, append the segment, then either record the
finish time or count the preemption and re-enqueue. -/
def rrBody (quantum : Int) (s : RRState) (i : Nat) (rest : List Nat) : RRState :=
  let t0 := getT s.tasks i
  let t1 := { t0 with start_time := if t0.start_time = none then some s.time_now else t0.start_time }
  let run_time := min quantum t1.remaining
  let stop := s.time_now + run_time
  let seg : TimelineSegment := { pid := t1.pid, start := s.time_now, stop := stop }
  let t2 := { t1 with remaining := t1.remaining - run_time }
  if t2.remaining ≤ 0 then
    { tasks := s.tasks.set i { t2 with finish_time := some stop },
      queue := rest,
      time_now := stop,
      timeline := s.timeline ++ [seg],
      context_switches := s.context_switches }
  else
    { tasks := s.tasks.set i { t2 with context_switches := t2.context_switches + 1 },
      queue := rest ++ [i],
      time_now := stop,
      timeline := s.timeline ++ [seg],
      context_switches := s.context_switches + 1 }

/-- Round-Robin main loop.  The Python loop runs while the queue is
nonempty; fuel bounds the number of iterations and none models
divergence, which the Python code exhibits exactly when the quantum is
nonpositive and work remains. -/
def rrLoop (quantum : Int) (fuel : Nat) (s : RRState) : Option RRState :=
  match s.queue, fuel with
  | [], _ => some s
  | _ :: _, 0 => none
  | i :: rest, fuel' + 1 => rrLoop quantum fuel' (rrBody quantum s i rest)

/-- Round-Robin simulator simulate_rr: deep-copy and reset the tasks,
sort by (t_llegada, pid), seed the queue with every task, run the loop,
then compute the metrics.  The chosen fuel is sufficient whenever the
quantum is at least 1. -/
def simulate_rr (tasks : List Task) (quantum : Int) : Option (List TimelineSegment × List Task × Metrics) :=
  let ready := sortTasks (tasks.map resetTask)
  let fuel := (ready.map (fun t => t.remaining.toNat + 1)).sum
  match rrLoop quantum fuel { tasks := ready, queue := List.range ready.length, time_now := 0, timeline := [], context_switches := 0 } with
  | some s => some (s.timeline, s.tasks, computeMetrics s.tasks s.timeline s.context_switches)
  | none => none

/-- State of the SRTF loop: the ready list (also the scan order of the
selection), the virtual clock, the timeline, the global switch counter
and the pid of the previously running task. -/
structure SrtfState where
  tasks : List Task
  time_now : Int
  timeline : List TimelineSegment
  context_switches : Int
  current : Option Int
deriving Repr

/-- Candidate list of the SRTF selection: tasks with positive remaining,
paired with their position, in list order. -/
def srtfCandidates (tasks : List Task) : List (Nat × Task) :=
  tasks.enum.filter (fun p => decide (0 < p.2.remaining))

/-- Fold modelling the Python min with key remaining: the accumulator is
replaced only on a strictly smaller key, so the first minimum wins. -/
def pickMin (p : Nat × Task) (ps : List (Nat × Task)) : Nat × Task :=
  ps.foldl (fun best x => if x.2.remaining < best.2.remaining then x else best) p

/-- Index selected by one SRTF step: the first task with minimal positive
remaining, none when no task has positive remaining. -/
def selectIdx (tasks : List Task) : Option Nat :=
  match srtfCandidates tasks with
  | [] => none
  | p :: ps => some (pickMin p ps).1

/-- Whether dispatching the task at position i counts as a context
switch: the previously running task exists and has a different pid. -/
def srtfSw (s : SrtfState) (i : Nat) : Bool :=
  match s.current with
  | none => false
  | some p => decide (p ≠ (getT s.tasks i).pid)

/-- Updated value of the selected task after one SRTF unit: possibly
incremented switch counter, start_time set if unset, remaining lowered by
one, finish_time recorded when remaining hits 0. -/
def srtfTaskUpd (s : SrtfState) (i : Nat) : Task :=
  let t0 := getT s.tasks i
  let t1 := { t0 with context_switches := if srtfSw s i then t0.context_switches + 1 else t0.context_switches }
  let t2 := { t1 with start_time := if t1.start_time = none then some s.time_now else t1.start_time }
  let t3 := { t2 with remaining := t2.remaining - 1 }
  { t3 with finish_time := if t3.remaining = 0 then some (s.time_now + 1) else t3.finish_time }

/-- One unit of the SRTF loop on the selected index i: count the switch
when the previous pid differs, set start_time if unset, run one unit,
append the one-unit segment and record the finish time when remaining
hits 0. -/
def srtfBody (s : SrtfState) (i : Nat) : SrtfState :=
  { tasks := s.tasks.set i (srtfTaskUpd s i),
    time_now := s.time_now + 1,
    timeline := s.timeline ++
      [{ pid := (getT s.tasks i).pid, start := s.time_now, stop := s.time_now + 1 }],
    context_switches := if srtfSw s i then s.context_switches + 1 else s.context_switches,
    current := some (getT s.tasks i).pid }

/-- SRTF main loop.  The guard is the Python loop condition; the branch
with no selected index is the defensive idle tick of the source, which is
unreachable because the guard and the candidate filter test the same
predicate on the same list.  The chosen fuel makes the truncation at 0
unreachable as well. -/
def srtfLoop : Nat → SrtfState → SrtfState
  | 0, s => s
  | fuel + 1, s =>
    if s.tasks.any (fun t => decide (0 < t.remaining)) then
      match selectIdx s.tasks with
      | some i => srtfLoop fuel (srtfBody s i)
      | none => srtfLoop fuel { s with time_now := s.time_now + 1 }
    else s

/-- SRTF simulator simulate_srtf: deep-copy and reset the tasks (no
sorting), run the unit-by-unit loop, then compute the metrics.  One unit
of work is performed per iteration, so the total remaining work is an
exact iteration bound. -/
def simulate_srtf (tasks : List Task) : List TimelineSegment × List Task × Metrics :=
  let ready := tasks.map resetTask
  let fuel := (ready.map (fun t => t.remaining.toNat)).sum
  let s := srtfLoop fuel { tasks := ready, time_now := 0, timeline := [], context_switches := 0, current := none }
  (s.timeline, s.tasks, computeMetrics s.tasks s.timeline s.context_switches)

/-- Ceiling division modelling the number of Round-Robin dispatches a
task with the given remaining work needs at the given quantum. -/
def dispCount (q : Nat) (r : Int) : Nat :=
  (r.toNat + q - 1) / q

/-- Timeline tl tiles the half-open interval from a to b: consecutive
segments are adjacent, the first starts at a and the last ends at b. -/
def tiles : List TimelineSegment → Int → Int → Prop
  | [], a, b => a = b
  | seg :: rest, a, b => seg.start = a ∧ tiles rest seg.stop b

/-- Concrete two-task scenario of the spec: pid 1, arrival 0, burst 5. -/
def taskA5 : Task :=
  mkTask 1 "p1" 0 5 0 0 0 2 "R"

/-- Concrete two-task scenario of the spec: pid 2, arrival 0, burst 3. -/
def taskB3 : Task :=
  mkTask 2 "p2" 0 3 0 0 0 2 "R"

/-- Concrete task with burst 1, pid 1, arrival 0. -/
def unitT1 : Task :=
  mkTask 1 "u1" 0 1 0 0 0 2 "R"

/-- Concrete task with burst 1, pid 2, arrival 0. -/
def unitT2 : Task :=
  mkTask 2 "u2" 0 1 0 0 0 2 "R"

/-- Remaining field of the task at position i. -/
def remOf (s : RRState) (i : Nat) : Int :=
  (getT s.tasks i).remaining

/-- Number of dispatches the Round-Robin loop still has to perform: each
queued task needs ceiling of remaining over quantum dispatches. -/
def rrPot (q : Nat) (s : RRState) : Nat :=
  (s.queue.map (fun i => dispCount q (remOf s i))).sum

/-- Total remaining work of the queued tasks. -/
def rrRemSum (s : RRState) : Int :=
  (s.queue.map (fun i => remOf s i)).sum

/-- Invariant of the Round-Robin loop: the queue holds distinct in-range
indices of unfinished tasks with positive remaining work, and every task
not in the queue has finished with zero remaining work. -/
def RRInv (s : RRState) : Prop :=
  s.queue.Nodup ∧
  (∀ i ∈ s.queue, i < s.tasks.length ∧ 1 ≤ remOf s i ∧ (getT s.tasks i).finish_time = none) ∧
  (∀ i, i < s.tasks.length → i ∉ s.queue → remOf s i = 0 ∧ (getT s.tasks i).finish_time ≠ none)

/-- Sort key of a task: the pair (t_llegada, pid). -/
def taskKey (t : Task) : Int × Int :=
  (t.t_llegada, t.pid)

/-- Propositional form of the boolean key comparison. -/
def keyLEP (a b : Task) : Prop :=
  taskKeyLE a b = true

/-- Strict lexicographic order on the sort keys. -/
def keyLT (a b : Task) : Prop :=
  a.t_llegada < b.t_llegada ∨ (a.t_llegada = b.t_llegada ∧ a.pid < b.pid)

/-- Remaining units of work the SRTF loop still has to simulate. -/
def srtfPot (s : SrtfState) : Nat :=
  (s.tasks.map (fun t => t.remaining.toNat)).sum

/-- Invariant of the SRTF loop: remaining work is nonnegative, the finish
time is unset exactly while work remains, and recorded finish times never
exceed the clock. -/
def SrtfInv (s : SrtfState) : Prop :=
  ∀ j, j < s.tasks.length →
    0 ≤ (getT s.tasks j).remaining ∧
    ((getT s.tasks j).finish_time = none ↔ 0 < (getT s.tasks j).remaining) ∧
    (∀ v, (getT s.tasks j).finish_time = some v → v ≤ s.time_now)

/-- Concrete SRTF state used to witness hypothesis-bearing theorems. -/
def stateB : SrtfState :=
  { tasks := [taskA5, taskB3], time_now := 0, timeline := [],
    context_switches := 0, current := none }

/-- Concrete Round-Robin state used to witness hypothesis-bearing
theorems. -/
def stateR : RRState :=
  { tasks := [taskA5, taskB3], queue := [0, 1], time_now := 0,
    timeline := [], context_switches := 0 }

/-- Transcription of the metrics formulas as the spec states them, to be
compared with the computeMetrics of the source: per-task waiting is
finish minus arrival minus burst, turnaround is finish minus arrival,
response is start minus arrival; the reported averages are the arithmetic
means of these over all tasks and 0 for an empty task set; total time is
the end of the last segment (0 for an empty timeline); throughput is task
count over total time with 0 substituted when the total time is 0. -/
def metricsSpec (tl : List TimelineSegment) (fin : List Task) (m : Metrics) : Prop :=
  (fin.length = 0 → m.espera_promedio = 0 ∧ m.turnaround_promedio = 0 ∧
    m.respuesta_promedio = 0) ∧
  (fin.length ≠ 0 →
    m.espera_promedio =
      ((fin.map (fun t => ((t.finish_time.getD 0 - t.t_llegada - t.burst : Int) : ℚ))).sum)
        / (fin.length : ℚ) ∧
    m.turnaround_promedio =
      ((fin.map (fun t => ((t.finish_time.getD 0 - t.t_llegada : Int) : ℚ))).sum)
        / (fin.length : ℚ) ∧
    m.respuesta_promedio =
      ((fin.map (fun t => ((t.start_time.getD 0 - t.t_llegada : Int) : ℚ))).sum)
        / (fin.length : ℚ)) ∧
  m.finalizacion_total = lastStop tl ∧
  (lastStop tl = 0 → m.throughput = 0) ∧
  (lastStop tl ≠ 0 → m.throughput = (fin.length : ℚ) / ((lastStop tl : Int) : ℚ))

/-- Explicit object store modelling the Python heap of Task objects: a
map from addresses to task values and an allocation bound.  Used to
state the frame property of the simulators, which a pure value model
cannot express. -/
structure Heap where
  mem : Nat → Task
  next : Nat

/-- Store update at one address, modelling in-place mutation of one
object. -/
def writeH (h : Heap) (a : Nat) (t : Task) : Heap :=
  { mem := fun x => if x = a then t else h.mem x, next := h.next }

/-- Allocation of a fresh object holding the given value. -/
def allocH (h : Heap) (t : Task) : Heap × Nat :=
  ({ mem := fun x => if x = h.next then t else h.mem x, next := h.next + 1 }, h.next)

/-- The deep copy both simulators perform on entry, combined with the
reset of the runtime fields that immediately follows it: allocate a fresh
reset copy of every input object, in input order. -/
def allocCopies : Heap → List Nat → Heap × List Nat
  | h, [] => (h, [])
  | h, a :: as =>
    let p := allocH h (resetTask (h.mem a))
    let r := allocCopies p.1 as
    (r.1, p.2 :: r.2)

/-- Heap-level state of the Round-Robin loop: the queue holds addresses
of the task objects, as the Python queue holds references. -/
structure RRHState where
  heap : Heap
  queue : List Nat
  time_now : Int
  timeline : List TimelineSegment
  context_switches : Int

/-- Address-level stable insertion by the (t_llegada, pid) key of the
stored objects. -/
def insertAddr (h : Heap) (a : Nat) : List Nat → List Nat
  | [] => [a]
  | b :: bs => if taskKeyLE (h.mem a) (h.mem b) then a :: b :: bs else b :: insertAddr h a bs

/-- Address-level stable sort by the stored (t_llegada, pid) keys. -/
def sortAddrs (h : Heap) : List Nat → List Nat
  | [] => []
  | a :: as => insertAddr h a (sortAddrs h as)

/-- One heap-level Round-Robin iteration on the dequeued address. -/
def rrBodyH (quantum : Int) (s : RRHState) (a : Nat) (rest : List Nat) : RRHState :=
  let t0 := s.heap.mem a
  let t1 := { t0 with start_time := if t0.start_time = none then some s.time_now else t0.start_time }
  let run_time := min quantum t1.remaining
  let stop := s.time_now + run_time
  let seg : TimelineSegment := { pid := t1.pid, start := s.time_now, stop := stop }
  let t2 := { t1 with remaining := t1.remaining - run_time }
  if t2.remaining ≤ 0 then
    { heap := writeH s.heap a { t2 with finish_time := some stop },
      queue := rest, time_now := stop, timeline := s.timeline ++ [seg],
      context_switches := s.context_switches }
  else
    { heap := writeH s.heap a { t2 with context_switches := t2.context_switches + 1 },
      queue := rest ++ [a], time_now := stop, timeline := s.timeline ++ [seg],
      context_switches := s.context_switches + 1 }

/-- Heap-level Round-Robin loop; fuel exhaustion truncates, and every
truncated run is a prefix of the Python execution, so the frame property
proved for all fuels covers the full run. -/
def rrLoopH (quantum : Int) (fuel : Nat) (s : RRHState) : RRHState :=
  match s.queue, fuel with
  | [], _ => s
  | _ :: _, 0 => s
  | a :: rest, fuel' + 1 => rrLoopH quantum fuel' (rrBodyH quantum s a rest)

/-- Heap-level Round-Robin simulator: deep copy plus reset, sort the
copies by key, run, and compute the metrics from the copied objects. -/
def simulate_rr_heap (h : Heap) (addrs : List Nat) (quantum : Int) :
    Heap × List TimelineSegment × List Nat × Metrics :=
  let p := allocCopies h addrs
  let order := sortAddrs p.1 p.2
  let fuel := (order.map (fun a => (p.1.mem a).remaining.toNat + 1)).sum
  let s := rrLoopH quantum fuel
    { heap := p.1, queue := order, time_now := 0, timeline := [], context_switches := 0 }
  (s.heap, s.timeline, order, computeMetrics (order.map s.heap.mem) s.timeline s.context_switches)

/-- Heap-level state of the SRTF loop: the fixed address list plays the
role of the Python reference list that is rescanned every unit. -/
structure SrtfHState where
  heap : Heap
  addrs : List Nat
  time_now : Int
  timeline : List TimelineSegment
  context_switches : Int
  current : Option Int

/-- Heap-level SRTF selection: first address whose object has minimal
positive remaining work. -/
def selectAddr (h : Heap) (addrs : List Nat) : Option Nat :=
  match addrs.filter (fun a => decide (0 < (h.mem a).remaining)) with
  | [] => none
  | a :: as => some (as.foldl (fun best x =>
      if (h.mem x).remaining < (h.mem best).remaining then x else best) a)

/-- One heap-level SRTF unit on the selected address. -/
def srtfBodyH (s : SrtfHState) (a : Nat) : SrtfHState :=
  let t0 := s.heap.mem a
  let sw : Bool := match s.current with
    | none => false
    | some p => decide (p ≠ t0.pid)
  let t1 := { t0 with context_switches := if sw then t0.context_switches + 1 else t0.context_switches }
  let t2 := { t1 with start_time := if t1.start_time = none then some s.time_now else t1.start_time }
  let t3 := { t2 with remaining := t2.remaining - 1 }
  let t4 := { t3 with finish_time := if t3.remaining = 0 then some (s.time_now + 1) else t3.finish_time }
  { heap := writeH s.heap a t4, addrs := s.addrs, time_now := s.time_now + 1,
    timeline := s.timeline ++ [{ pid := t0.pid, start := s.time_now, stop := s.time_now + 1 }],
    context_switches := if sw then s.context_switches + 1 else s.context_switches,
    current := some t0.pid }

/-- Heap-level SRTF loop. -/
def srtfLoopH : Nat → SrtfHState → SrtfHState
  | 0, s => s
  | fuel + 1, s =>
    if s.addrs.any (fun a => decide (0 < (s.heap.mem a).remaining)) then
      match selectAddr s.heap s.addrs with
      | some a => srtfLoopH fuel (srtfBodyH s a)
      | none => srtfLoopH fuel { s with time_now := s.time_now + 1 }
    else s

/-- Heap-level SRTF simulator. -/
def simulate_srtf_heap (h : Heap) (addrs : List Nat) :
    Heap × List TimelineSegment × List Nat × Metrics :=
  let p := allocCopies h addrs
  let fuel := (p.2.map (fun a => (p.1.mem a).remaining.toNat)).sum
  let s := srtfLoopH fuel
    { heap := p.1, addrs := p.2, time_now := 0, timeline := [],
      context_switches := 0, current := none }
  (s.heap, s.timeline, p.2, computeMetrics (p.2.map s.heap.mem) s.timeline s.context_switches)

/-- Concrete heap used to witness the frame theorem. -/
def heapW : Heap :=
  { mem := fun x => if x = 0 then taskA5 else taskB3, next := 2 }

/-- C6: on tasks (pid 1, burst 5) and (pid 2, burst 3) with quantum 2, the
Round-Robin timeline is exactly (1,0,2),(2,2,4),(1,4,6),(2,6,7),(1,7,8)
and the finish times are 8 for task 1 and 7 for task 2. -/
theorem rr_scenarioA :
    (simulate_rr [taskA5, taskB3] 2).map
        (fun r => (r.1, r.2.1.map (fun t => (t.pid, t.finish_time)))) =
      some ([{ pid := 1, start := 0, stop := 2 }, { pid := 2, start := 2, stop := 4 },
             { pid := 1, start := 4, stop := 6 }, { pid := 2, start := 6, stop := 7 },
             { pid := 1, start := 7, stop := 8 }],
            [(1, some 8), (2, some 7)]) := by
  decide

/-- C2 counterexample: on the SRTF scenario with tasks (pid 1, burst 5)
and (pid 2, burst 3), the run does not record zero preemptions: the
global counter and the counter of task 1 are both 1, because the handoff
from the finished task 2 to task 1 is counted as a context switch. -/
theorem srtf_scenarioB_cex :
    ¬ ((simulate_srtf [taskA5, taskB3]).2.2.context_switches = 0 ∧
       ∀ t ∈ (simulate_srtf [taskA5, taskB3]).2.1, t.context_switches = 0) := by
  decide

/-- C2 amended: on the SRTF scenario, task 2 runs at units 0,1,2 (every
unit while its remaining is positive), task 2 finishes at 3, task 1 at 8,
and the run records exactly one context switch, charged globally and to
task 1 at the handoff after task 2 completes; task 2 itself is never
preempted. -/
theorem srtf_scenarioB :
    (simulate_srtf [taskA5, taskB3]).1 =
      [{ pid := 2, start := 0, stop := 1 }, { pid := 2, start := 1, stop := 2 },
       { pid := 2, start := 2, stop := 3 }, { pid := 1, start := 3, stop := 4 },
       { pid := 1, start := 4, stop := 5 }, { pid := 1, start := 5, stop := 6 },
       { pid := 1, start := 6, stop := 7 }, { pid := 1, start := 7, stop := 8 }] ∧
    (simulate_srtf [taskA5, taskB3]).2.1.map
        (fun t => (t.pid, t.finish_time, t.context_switches)) =
      [(1, some 8, 1), (2, some 3, 0)] ∧
    (simulate_srtf [taskA5, taskB3]).2.2.context_switches = 1 := by
  refine ⟨by decide, by decide, by decide⟩

/-- C1 counterexample: with two tasks of burst 1 and quantum 2, the
Round-Robin loop performs 2 dispatch events, not the ceiling of the total
burst divided by the quantum, which is 1. -/
theorem rr_dispatch_total_cex :
    (simulate_rr [unitT1, unitT2] 2).map (fun r => r.1.length) ≠
      some (dispCount 2 (unitT1.burst + unitT2.burst)) := by
  decide

/-- C10 counterexample: on the single task (pid 1, burst 5) with quantum
2, the Round-Robin run returns global context-switch count 2 and a
per-task count of 2, not 0: each of the two non-final dispatches of the
lone task increments both counters. -/
theorem rr_single_switch_cex :
    (simulate_rr [taskA5] 2).map
        (fun r => (r.2.2.context_switches, r.2.1.map Task.context_switches)) ≠
      some (0, [0]) := by
  decide

/-! Helper lemmas about positional reads, sums and tiling. -/

theorem getT_set_self (l : List Task) (i : Nat) (a : Task) (h : i < l.length) :
    getT (l.set i a) i = a := by
  simp [getT, List.getElem?_set_self, h]

theorem getT_set_ne (l : List Task) (i j : Nat) (a : Task) (h : i ≠ j) :
    getT (l.set i a) j = getT l j := by
  simp [getT, List.getElem?_set_ne h]

theorem getT_mem (l : List Task) (i : Nat) (h : i < l.length) : getT l i ∈ l := by
  have hmem : l[i] ∈ l := List.getElem_mem h
  simp only [getT, List.getD_eq_getElem?_getD, List.getElem?_eq_getElem h, Option.getD_some]
  exact hmem

theorem map_getT_set_of_not_mem (f : Task → α) (tasks : List Task) (i : Nat) (a : Task)
    (rest : List Nat) (h : i ∉ rest) :
    rest.map (fun j => f (getT (tasks.set i a) j)) = rest.map (fun j => f (getT tasks j)) := by
  induction rest with
  | nil => rfl
  | cons b bs ih =>
    have hb : i ≠ b := fun hc => h (hc ▸ List.mem_cons_self b bs)
    have hbs : i ∉ bs := fun hc => h (List.mem_cons_of_mem b hc)
    simp [List.map_cons, getT_set_ne tasks i b a hb, ih hbs]

theorem range_map_getT (f : Task → α) (l : List Task) :
    (List.range l.length).map (fun i => f (getT l i)) = l.map f := by
  induction l with
  | nil => rfl
  | cons t ts ih =>
    have h0 : getT (t :: ts) 0 = t := rfl
    have hs : ∀ i : Nat, getT (t :: ts) (i + 1) = getT ts i := fun i => rfl
    calc (List.range (t :: ts).length).map (fun i => f (getT (t :: ts) i))
        = f t :: ((List.range ts.length).map (fun i => f (getT (t :: ts) (i + 1)))) := by
          simp [List.length_cons, List.range_succ_eq_map, List.map_map, Function.comp, h0]
      _ = f t :: ((List.range ts.length).map (fun i => f (getT ts i))) := by
          simp only [hs]
      _ = (t :: ts).map f := by rw [ih]; rfl

theorem tiles_append (l1 l2 : List TimelineSegment) (a b c : Int)
    (h1 : tiles l1 a b) (h2 : tiles l2 b c) : tiles (l1 ++ l2) a c := by
  induction l1 generalizing a with
  | nil =>
    have hab : a = b := h1
    rw [List.nil_append, hab]
    exact h2
  | cons seg segs ih =>
    obtain ⟨hstart, hrest⟩ := h1
    exact ⟨hstart, ih seg.stop hrest⟩

theorem tiles_lastStop (l : List TimelineSegment) (a b : Int) (h : tiles l a b)
    (hne : l ≠ []) : lastStop l = b := by
  induction l generalizing a with
  | nil => exact absurd rfl hne
  | cons seg segs ih =>
    obtain ⟨hstart, hrest⟩ := h
    cases segs with
    | nil =>
      have hstop : seg.stop = b := hrest
      simp [lastStop, hstop]
    | cons s2 ss =>
      have h2 := ih seg.stop hrest (by simp)
      simpa [lastStop, List.getLast?_cons_cons] using h2

theorem sum_toNat_cast (l : List Task) (f : Task → Int) (h : ∀ t ∈ l, 0 ≤ f t) :
    ((l.map (fun t => (f t).toNat)).sum : Int) = (l.map f).sum := by
  induction l with
  | nil => rfl
  | cons t ts ih =>
    have ht : 0 ≤ f t := h t (List.mem_cons_self t ts)
    have hts : ∀ u ∈ ts, 0 ≤ f u := fun u hu => h u (List.mem_cons_of_mem t hu)
    simp [List.map_cons, List.sum_cons, ih hts, Int.toNat_of_nonneg ht]

theorem dispCount_eq_one (q : Nat) (r : Int) (_hq : 0 < q) (h1 : 1 ≤ r) (h2 : r ≤ (q : Int)) :
    dispCount q r = 1 := by
  unfold dispCount
  have hr1 : 1 ≤ r.toNat := by omega
  have hrq : r.toNat ≤ q := by omega
  exact Nat.div_eq_of_lt_le (by omega) (by omega)

theorem dispCount_step (q : Nat) (r : Int) (hq : 0 < q) (h : (q : Int) < r) :
    dispCount q r = dispCount q (r - q) + 1 := by
  unfold dispCount
  have h1 : q < r.toNat := by omega
  have h2 : (r - q).toNat = r.toNat - q := by omega
  rw [h2]
  have h3 : r.toNat + q - 1 = (r.toNat - q + q - 1) + q := by omega
  rw [h3, Nat.add_div_right _ hq]

theorem dispCount_pos (q : Nat) (r : Int) (hq : 0 < q) (h1 : 1 ≤ r) :
    1 ≤ dispCount q r := by
  unfold dispCount
  have : q ≤ r.toNat + q - 1 := by omega
  exact Nat.one_le_div_iff hq |>.mpr this

theorem dispCount_le (q : Nat) (r : Int) (hq : 0 < q) :
    dispCount q r ≤ r.toNat + 1 := by
  unfold dispCount
  have h1 : r.toNat ≤ r.toNat * q := Nat.le_mul_of_pos_right _ hq
  have hle : r.toNat + q - 1 ≤ (r.toNat + 1) * q := by
    rw [Nat.succ_mul]
    omega
  calc (r.toNat + q - 1) / q ≤ ((r.toNat + 1) * q) / q := Nat.div_le_div_right hle
    _ = r.toNat + 1 := Nat.mul_div_cancel _ hq

/-- Field characterization of one Round-Robin iteration when the dequeued
task finishes within its slice. -/
theorem rrBody_finish_fields (q : Int) (s : RRState) (i : Nat) (rest : List Nat)
    (_h1 : 1 ≤ remOf s i) (h2 : remOf s i ≤ q) :
    (rrBody q s i rest).queue = rest ∧
    (rrBody q s i rest).time_now = s.time_now + remOf s i ∧
    (rrBody q s i rest).timeline =
      s.timeline ++ [{ pid := (getT s.tasks i).pid, start := s.time_now, stop := s.time_now + remOf s i }] ∧
    (rrBody q s i rest).context_switches = s.context_switches ∧
    (rrBody q s i rest).tasks = s.tasks.set i
      { getT s.tasks i with
        start_time := if (getT s.tasks i).start_time = none then some s.time_now
          else (getT s.tasks i).start_time,
        remaining := 0,
        finish_time := some (s.time_now + remOf s i) } := by
  have hmin : min q (getT s.tasks i).remaining = (getT s.tasks i).remaining :=
    min_eq_right h2
  have hrem : remOf s i = (getT s.tasks i).remaining := rfl
  rw [hrem] at h2
  simp only [rrBody, hmin]
  have hcond : (getT s.tasks i).remaining - (getT s.tasks i).remaining ≤ 0 := by omega
  rw [if_pos hcond]
  refine ⟨rfl, rfl, rfl, rfl, ?_⟩
  simp only [remOf, sub_self]

/-- Field characterization of one Round-Robin iteration when the dequeued
task is preempted at the end of its quantum. -/
theorem rrBody_preempt_fields (q : Int) (s : RRState) (i : Nat) (rest : List Nat)
    (_hq : 1 ≤ q) (h2 : q < remOf s i) :
    (rrBody q s i rest).queue = rest ++ [i] ∧
    (rrBody q s i rest).time_now = s.time_now + q ∧
    (rrBody q s i rest).timeline =
      s.timeline ++ [{ pid := (getT s.tasks i).pid, start := s.time_now, stop := s.time_now + q }] ∧
    (rrBody q s i rest).context_switches = s.context_switches + 1 ∧
    (rrBody q s i rest).tasks = s.tasks.set i
      { getT s.tasks i with
        start_time := if (getT s.tasks i).start_time = none then some s.time_now
          else (getT s.tasks i).start_time,
        remaining := remOf s i - q,
        context_switches := (getT s.tasks i).context_switches + 1 } := by
  have hrem : remOf s i = (getT s.tasks i).remaining := rfl
  rw [hrem] at h2
  have hmin : min q (getT s.tasks i).remaining = q := min_eq_left (le_of_lt h2)
  simp only [rrBody, hmin]
  have hcond : ¬ ((getT s.tasks i).remaining - q ≤ 0) := by omega
  rw [if_neg hcond]
  exact ⟨rfl, rfl, rfl, rfl, rfl⟩

/-- One Round-Robin iteration preserves the loop invariant, decreases the
dispatch potential by exactly one, advances the clock by the work done,
appends exactly one segment spanning the elapsed interval, and keeps the
switch-accounting quantity constant. -/
theorem rrBody_step (q : Int) (hq : 1 ≤ q) (s s' : RRState) (i : Nat) (rest : List Nat)
    (hqueue : s.queue = i :: rest) (hinv : RRInv s) (hs' : s' = rrBody q s i rest) :
    RRInv s' ∧
    s'.tasks.length = s.tasks.length ∧
    rrPot q.toNat s = rrPot q.toNat s' + 1 ∧
    rrRemSum s = rrRemSum s' + (s'.time_now - s.time_now) ∧
    s.time_now < s'.time_now ∧
    s'.timeline = s.timeline ++
      [{ pid := (getT s.tasks i).pid, start := s.time_now, stop := s'.time_now }] ∧
    s'.context_switches + (rrPot q.toNat s' : Int) - (s'.queue.length : Int)
      = s.context_switches + (rrPot q.toNat s : Int) - (s.queue.length : Int) := by
  obtain ⟨hnd, hqmem, hout⟩ := hinv
  have himem : i ∈ s.queue := by rw [hqueue]; exact List.mem_cons_self i rest
  obtain ⟨hilen, hirem, hifin⟩ := hqmem i himem
  have hndc : i ∉ rest ∧ rest.Nodup := by
    rw [hqueue] at hnd
    exact List.nodup_cons.mp hnd
  have hqn : 0 < q.toNat := by omega
  have hqcast : ((q.toNat : Int)) = q := Int.toNat_of_nonneg (by omega)
  by_cases hrq : remOf s i ≤ q
  · -- the dequeued task finishes within its slice
    obtain ⟨hsq, hst, hstl, hscs, hstk⟩ := rrBody_finish_fields q s i rest hirem hrq
    rw [← hs'] at hsq hst hstl hscs hstk
    have hlen : s'.tasks.length = s.tasks.length := by rw [hstk]; simp
    have hset_ne : ∀ j, j ≠ i → getT s'.tasks j = getT s.tasks j := by
      intro j hj
      rw [hstk]
      exact getT_set_ne s.tasks i j _ (fun hc => hj hc.symm)
    have hset_self : getT s'.tasks i =
        { getT s.tasks i with
          start_time := if (getT s.tasks i).start_time = none then some s.time_now
            else (getT s.tasks i).start_time,
          remaining := 0,
          finish_time := some (s.time_now + remOf s i) } := by
      rw [hstk]
      exact getT_set_self s.tasks i _ hilen
    have hpotrest : (rest.map (fun j => dispCount q.toNat (remOf s' j))).sum
        = (rest.map (fun j => dispCount q.toNat (remOf s j))).sum := by
      simp only [remOf, hstk]
      exact congrArg List.sum
        (map_getT_set_of_not_mem (fun t => dispCount q.toNat t.remaining) s.tasks i _ rest hndc.1)
    have hremrest : (rest.map (fun j => remOf s' j)).sum
        = (rest.map (fun j => remOf s j)).sum := by
      simp only [remOf, hstk]
      exact congrArg List.sum
        (map_getT_set_of_not_mem Task.remaining s.tasks i _ rest hndc.1)
    have hdisp1 : dispCount q.toNat (remOf s i) = 1 := by
      refine dispCount_eq_one q.toNat (remOf s i) hqn hirem ?_
      rw [hqcast]; exact hrq
    have hpot : rrPot q.toNat s = rrPot q.toNat s' + 1 := by
      rw [rrPot, rrPot, hqueue, hsq, List.map_cons, List.sum_cons, hpotrest, hdisp1]
      omega
    refine ⟨?_, hlen, hpot, ?_, ?_, ?_, ?_⟩
    · refine ⟨by rw [hsq]; exact hndc.2, ?_, ?_⟩
      · intro j hj
        have hjne : j ≠ i := by
          rw [hsq] at hj
          intro hc; exact hndc.1 (hc ▸ hj)
        have hjq : j ∈ s.queue := by
          rw [hqueue]
          rw [hsq] at hj
          exact List.mem_cons_of_mem i hj
        obtain ⟨h1, h2, h3⟩ := hqmem j hjq
        refine ⟨by rw [hlen]; exact h1, ?_, ?_⟩
        · rw [remOf, hset_ne j hjne]; exact h2
        · rw [hset_ne j hjne]; exact h3
      · intro j hjlen hjq
        rw [hlen] at hjlen
        by_cases hji : j = i
        · subst hji
          constructor
          · rw [remOf, hset_self]
          · rw [hset_self]
            simp
        · have hjnq : j ∉ s.queue := by
            rw [hqueue]
            intro hc
            rcases List.mem_cons.mp hc with h | h
            · exact hji h
            · rw [hsq] at hjq; exact hjq h
          obtain ⟨h1, h2⟩ := hout j hjlen hjnq
          constructor
          · rw [remOf, hset_ne j hji]; exact h1
          · rw [hset_ne j hji]; exact h2
    · rw [rrRemSum, rrRemSum, hqueue, hsq]
      simp only [List.map_cons, List.sum_cons]
      rw [hremrest, hst]
      ring
    · rw [hst]; omega
    · rw [hstl, hst]
    · rw [hscs, hsq, hqueue, hpot]
      simp only [List.length_cons]
      push_cast
      omega
  · -- the dequeued task is preempted at the end of its quantum
    push_neg at hrq
    obtain ⟨hsq, hst, hstl, hscs, hstk⟩ := rrBody_preempt_fields q s i rest hq hrq
    rw [← hs'] at hsq hst hstl hscs hstk
    have hlen : s'.tasks.length = s.tasks.length := by rw [hstk]; simp
    have hset_ne : ∀ j, j ≠ i → getT s'.tasks j = getT s.tasks j := by
      intro j hj
      rw [hstk]
      exact getT_set_ne s.tasks i j _ (fun hc => hj hc.symm)
    have hset_self : getT s'.tasks i =
        { getT s.tasks i with
          start_time := if (getT s.tasks i).start_time = none then some s.time_now
            else (getT s.tasks i).start_time,
          remaining := remOf s i - q,
          context_switches := (getT s.tasks i).context_switches + 1 } := by
      rw [hstk]
      exact getT_set_self s.tasks i _ hilen
    have hpotrest : (rest.map (fun j => dispCount q.toNat (remOf s' j))).sum
        = (rest.map (fun j => dispCount q.toNat (remOf s j))).sum := by
      simp only [remOf, hstk]
      exact congrArg List.sum
        (map_getT_set_of_not_mem (fun t => dispCount q.toNat t.remaining) s.tasks i _ rest hndc.1)
    have hremrest : (rest.map (fun j => remOf s' j)).sum
        = (rest.map (fun j => remOf s j)).sum := by
      simp only [remOf, hstk]
      exact congrArg List.sum
        (map_getT_set_of_not_mem Task.remaining s.tasks i _ rest hndc.1)
    have hremi : remOf s' i = remOf s i - q := by
      rw [remOf, hset_self]
    have hdisp : dispCount q.toNat (remOf s i) = dispCount q.toNat (remOf s i - q) + 1 := by
      have := dispCount_step q.toNat (remOf s i) hqn (by rw [hqcast]; exact hrq)
      rw [hqcast] at this
      exact this
    have hpot : rrPot q.toNat s = rrPot q.toNat s' + 1 := by
      rw [rrPot, rrPot, hqueue, hsq]
      simp only [List.map_cons, List.sum_cons, List.map_append, List.sum_append,
        List.map_nil, List.sum_nil]
      rw [hpotrest, hremi, hdisp]
      omega
    refine ⟨?_, hlen, hpot, ?_, ?_, ?_, ?_⟩
    · refine ⟨?_, ?_, ?_⟩
      · rw [hsq]
        refine List.Nodup.append hndc.2 (List.nodup_singleton i) ?_
        intro a ha hai
        have : a = i := List.mem_singleton.mp hai
        exact hndc.1 (this ▸ ha)
      · intro j hj
        rw [hsq] at hj
        rcases List.mem_append.mp hj with hjr | hji
        · have hjne : j ≠ i := fun hc => hndc.1 (hc ▸ hjr)
          have hjq : j ∈ s.queue := by rw [hqueue]; exact List.mem_cons_of_mem i hjr
          obtain ⟨h1, h2, h3⟩ := hqmem j hjq
          refine ⟨by rw [hlen]; exact h1, ?_, ?_⟩
          · rw [remOf, hset_ne j hjne]; exact h2
          · rw [hset_ne j hjne]; exact h3
        · have hji' : j = i := List.mem_singleton.mp hji
          subst hji'
          refine ⟨by rw [hlen]; exact hilen, ?_, ?_⟩
          · rw [hremi]; omega
          · rw [hset_self]; exact hifin
      · intro j hjlen hjq
        rw [hlen] at hjlen
        have hji : j ≠ i := by
          intro hc
          apply hjq
          rw [hsq, hc]
          exact List.mem_append.mpr (Or.inr (List.mem_singleton.mpr rfl))
        have hjnq : j ∉ s.queue := by
          rw [hqueue]
          intro hc
          rcases List.mem_cons.mp hc with h | h
          · exact hji h
          · exact hjq (by rw [hsq]; exact List.mem_append.mpr (Or.inl h))
        obtain ⟨h1, h2⟩ := hout j hjlen hjnq
        constructor
        · rw [remOf, hset_ne j hji]; exact h1
        · rw [hset_ne j hji]; exact h2
    · rw [rrRemSum, rrRemSum, hqueue, hsq]
      simp only [List.map_cons, List.sum_cons, List.map_append, List.sum_append,
        List.map_nil, List.sum_nil]
      rw [hremrest, hremi, hst]
      ring
    · rw [hst]; omega
    · rw [hstl, hst]
    · rw [hscs, hsq, hqueue, hpot]
      simp only [List.length_cons, List.length_append, List.length_singleton, List.length_nil]
      push_cast
      omega

/-- With a nonempty queue the dispatch potential is positive. -/
theorem rrPot_pos (q : Int) (hq : 1 ≤ q) (s : RRState) (i : Nat) (rest : List Nat)
    (hqueue : s.queue = i :: rest) (hinv : RRInv s) : 1 ≤ rrPot q.toNat s := by
  obtain ⟨hnd, hqmem, hout⟩ := hinv
  have himem : i ∈ s.queue := by rw [hqueue]; exact List.mem_cons_self i rest
  obtain ⟨hilen, hirem, hifin⟩ := hqmem i himem
  have h1 : 1 ≤ dispCount q.toNat (remOf s i) := dispCount_pos q.toNat (remOf s i) (by omega) hirem
  rw [rrPot, hqueue]
  simp only [List.map_cons, List.sum_cons]
  omega

/-- The Round-Robin loop returns immediately on an empty queue. -/
theorem rrLoop_empty_queue (q : Int) (fuel : Nat) (s : RRState) (h : s.queue = []) :
    rrLoop q fuel s = some s := by
  obtain ⟨tasks, queue, time, tl, cs⟩ := s
  simp only at h
  subst h
  cases fuel <;> rfl

/-- Main run lemma of the Round-Robin loop: under the invariant, with fuel
at least the dispatch potential, the loop terminates with an empty queue,
has performed exactly rrPot dispatch events each appending one positive
segment that tile the elapsed interval, has advanced the clock by the
total remaining work of the queue, and has incremented the switch counter
once per non-final dispatch. -/
theorem rrLoop_run (q : Int) (hq : 1 ≤ q) :
    ∀ (fuel : Nat) (s : RRState), RRInv s → rrPot q.toNat s ≤ fuel →
    ∃ s', rrLoop q fuel s = some s' ∧
      s'.queue = [] ∧ RRInv s' ∧
      s'.tasks.length = s.tasks.length ∧
      (∃ extra, s'.timeline = s.timeline ++ extra ∧ extra.length = rrPot q.toNat s ∧
        tiles extra s.time_now s'.time_now ∧ ∀ seg ∈ extra, seg.start < seg.stop) ∧
      s'.time_now = s.time_now + rrRemSum s ∧
      s'.context_switches = s.context_switches + (rrPot q.toNat s : Int) - (s.queue.length : Int) := by
  intro fuel
  induction fuel with
  | zero =>
    intro s hinv hpot
    cases hqueue : s.queue with
    | nil =>
      refine ⟨s, rrLoop_empty_queue q 0 s hqueue, hqueue, hinv, rfl, ⟨[], ?_, ?_, rfl, ?_⟩, ?_, ?_⟩
      · rw [List.append_nil]
      · rw [rrPot, hqueue]; rfl
      · intro seg hs
        exact absurd hs (List.not_mem_nil seg)
      · rw [rrRemSum, hqueue]; simp
      · rw [rrPot, hqueue]; simp
    | cons i rest =>
      have := rrPot_pos q hq s i rest hqueue hinv
      omega
  | succ n ih =>
    intro s hinv hpot
    cases hqueue : s.queue with
    | nil =>
      refine ⟨s, rrLoop_empty_queue q (n + 1) s hqueue, hqueue, hinv, rfl, ⟨[], ?_, ?_, rfl, ?_⟩, ?_, ?_⟩
      · rw [List.append_nil]
      · rw [rrPot, hqueue]; rfl
      · intro seg hs
        exact absurd hs (List.not_mem_nil seg)
      · rw [rrRemSum, hqueue]; simp
      · rw [rrPot, hqueue]; simp
    | cons i rest =>
      obtain ⟨hinv1, hlen1, hpot1, hrem1, htime1, htl1, hcs1⟩ :=
        rrBody_step q hq s (rrBody q s i rest) i rest hqueue hinv rfl
      have hstep : rrLoop q (n + 1) s = rrLoop q n (rrBody q s i rest) := by
        obtain ⟨tasks, queue, time, tl, cs⟩ := s
        simp only at hqueue
        subst hqueue
        rfl
      have hpot1' : rrPot q.toNat (rrBody q s i rest) ≤ n := by omega
      obtain ⟨s', hrun, hq', hinv', hlen', ⟨extra1, htl', hext1, htiles1, hposseg1⟩, htime', hcs'⟩ :=
        ih (rrBody q s i rest) hinv1 hpot1'
      refine ⟨s', by rw [hstep]; exact hrun, hq', hinv', by rw [hlen', hlen1],
        ⟨{ pid := (getT s.tasks i).pid, start := s.time_now,
           stop := (rrBody q s i rest).time_now } :: extra1, ?_, ?_, ?_, ?_⟩, ?_, ?_⟩
      · rw [htl', htl1]
        simp
      · simp only [List.length_cons]
        omega
      · exact ⟨rfl, htiles1⟩
      · intro seg hs
        rcases List.mem_cons.mp hs with h | h
        · rw [h]
          exact htime1
        · exact hposseg1 seg h
      · omega
      · rw [hcs', hcs1, hqueue]

/-- Inserting into the stable sort is a permutation. -/
theorem insertTask_perm (t : Task) (l : List Task) : (insertTask t l).Perm (t :: l) := by
  induction l with
  | nil => exact List.Perm.refl _
  | cons u us ih =>
    rw [insertTask]
    by_cases h : taskKeyLE t u
    · rw [if_pos h]
    · rw [if_neg h]
      exact (List.Perm.cons u ih).trans (List.Perm.swap t u us)

/-- The stable sort is a permutation of its input. -/
theorem sortTasks_perm (l : List Task) : (sortTasks l).Perm l := by
  induction l with
  | nil => exact List.Perm.refl _
  | cons t ts ih =>
    rw [sortTasks]
    exact (insertTask_perm t (sortTasks ts)).trans (List.Perm.cons t ih)

/-- Membership gives a position with matching positional read. -/
theorem mem_getT (l : List Task) (u : Task) (h : u ∈ l) :
    ∃ i, i < l.length ∧ getT l i = u := by
  obtain ⟨i, hi, hget⟩ := List.mem_iff_getElem.mp h
  refine ⟨i, hi, ?_⟩
  simp [getT, List.getElem?_eq_getElem hi, hget]

/-- Every task of the reset and sorted ready list is the reset of an input
task. -/
theorem ready_mem (tasks : List Task) (u : Task)
    (h : u ∈ sortTasks (tasks.map resetTask)) : ∃ t ∈ tasks, u = resetTask t := by
  have h2 : u ∈ tasks.map resetTask := (sortTasks_perm (tasks.map resetTask)).mem_iff.mp h
  obtain ⟨t, ht, hu⟩ := List.mem_map.mp h2
  exact ⟨t, ht, hu.symm⟩

/-- Sum of a function over the ready list equals the sum of the
corresponding function of burst over the input list. -/
theorem ready_map_sum {α : Type} [AddCommMonoid α] (tasks : List Task) (f : Task → α) :
    ((sortTasks (tasks.map resetTask)).map f).sum = (tasks.map (fun t => f (resetTask t))).sum := by
  have hperm : ((sortTasks (tasks.map resetTask)).map f).Perm ((tasks.map resetTask).map f) :=
    (sortTasks_perm (tasks.map resetTask)).map f
  rw [hperm.sum_eq, List.map_map]
  rfl

/-- Bundle lemma for a full Round-Robin run on positive bursts with a
positive quantum: the simulator returns, the finished list has the input
length and only completed tasks, the timeline has one segment per
dispatch, tiles the interval from 0 to the total burst, and the metrics
are computed from the finished data with one switch per non-final
dispatch. -/
theorem simulate_rr_run (tasks : List Task) (q : Int) (hq : 1 ≤ q)
    (hb : ∀ t ∈ tasks, 1 ≤ t.burst) :
    ∃ tl fin m, simulate_rr tasks q = some (tl, fin, m) ∧
      fin.length = tasks.length ∧
      tl.length = (tasks.map (fun t => dispCount q.toNat t.burst)).sum ∧
      tiles tl 0 ((tasks.map Task.burst).sum) ∧
      (∀ seg ∈ tl, seg.start < seg.stop) ∧
      lastStop tl = (tasks.map Task.burst).sum ∧
      (∀ t ∈ fin, t.remaining = 0 ∧ t.finish_time ≠ none) ∧
      m = computeMetrics fin tl
        (((tasks.map (fun t => dispCount q.toNat t.burst)).sum : Int) - (tasks.length : Int)) := by
  have hready : ∀ u ∈ sortTasks (tasks.map resetTask), ∃ t ∈ tasks, u = resetTask t :=
    ready_mem tasks
  have hreadylen : (sortTasks (tasks.map resetTask)).length = tasks.length := by
    rw [(sortTasks_perm (tasks.map resetTask)).length_eq, List.length_map]
  set ready := sortTasks (tasks.map resetTask) with hreadydef
  set s0 : RRState :=
    { tasks := ready, queue := List.range ready.length, time_now := 0,
      timeline := [], context_switches := 0 } with hs0
  have hinv0 : RRInv s0 := by
    refine ⟨List.nodup_range _, ?_, ?_⟩
    · intro i hi
      have hilen : i < ready.length := List.mem_range.mp hi
      obtain ⟨t, ht, hu⟩ := hready (getT ready i) (getT_mem ready i hilen)
      refine ⟨hilen, ?_, ?_⟩
      · show 1 ≤ (getT ready i).remaining
        rw [hu]
        exact hb t ht
      · show (getT ready i).finish_time = none
        rw [hu]
        rfl
    · intro i hilen hout
      exact absurd (List.mem_range.mpr hilen) hout
  have hpot0 : rrPot q.toNat s0 = (tasks.map (fun t => dispCount q.toNat t.burst)).sum := by
    show ((List.range ready.length).map (fun i => dispCount q.toNat (getT ready i).remaining)).sum
      = _
    rw [range_map_getT (fun t => dispCount q.toNat t.remaining) ready]
    exact ready_map_sum tasks (fun t => dispCount q.toNat t.remaining)
  have hrem0 : rrRemSum s0 = (tasks.map Task.burst).sum := by
    show ((List.range ready.length).map (fun i => (getT ready i).remaining)).sum = _
    rw [range_map_getT Task.remaining ready]
    exact ready_map_sum tasks Task.remaining
  have hfuel : rrPot q.toNat s0 ≤ (ready.map (fun t => t.remaining.toNat + 1)).sum := by
    have : rrPot q.toNat s0 = (ready.map (fun t => dispCount q.toNat t.remaining)).sum := by
      show ((List.range ready.length).map (fun i => dispCount q.toNat (getT ready i).remaining)).sum
        = _
      rw [range_map_getT (fun t => dispCount q.toNat t.remaining) ready]
    rw [this]
    refine List.sum_le_sum ?_
    intro t ht
    exact dispCount_le q.toNat t.remaining (by omega)
  obtain ⟨s', hrun, hq', hinv', hlen', ⟨extra, htl', hext, htiles, hpos⟩, htime', hcs'⟩ :=
    rrLoop_run q hq ((ready.map (fun t => t.remaining.toNat + 1)).sum) s0 hinv0 hfuel
  have hsim : simulate_rr tasks q =
      some (s'.timeline, s'.tasks, computeMetrics s'.tasks s'.timeline s'.context_switches) := by
    rw [simulate_rr, ← hreadydef, ← hs0, hrun]
  have htl0 : s'.timeline = extra := by
    rw [htl']
    exact List.nil_append extra
  have htime0 : s'.time_now = (tasks.map Task.burst).sum := by
    rw [htime', hrem0]
    ring
  have hcs0 : s'.context_switches =
      (((tasks.map (fun t => dispCount q.toNat t.burst)).sum : Int) - (tasks.length : Int)) := by
    rw [hcs', hpot0]
    show (0 : Int) + _ - ((List.range ready.length).length : Int) = _
    rw [List.length_range, hreadylen]
    ring
  refine ⟨s'.timeline, s'.tasks, _, hsim, ?_, ?_, ?_, ?_, ?_, ?_, ?_⟩
  · rw [hlen']
    show ready.length = tasks.length
    exact hreadylen
  · rw [htl0, hext, hpot0]
  · rw [htl0]
    have := htiles
    rw [htime0] at this
    exact this
  · intro seg hs
    rw [htl0] at hs
    exact hpos seg hs
  · rw [htl0]
    cases hextra : extra with
    | nil =>
      have h0 : tiles ([] : List TimelineSegment) 0 s'.time_now := hextra ▸ htiles
      have : (0 : Int) = s'.time_now := h0
      rw [lastStop]
      simp [← this, ← htime0]
    | cons e es =>
      have hne : extra ≠ [] := by rw [hextra]; exact List.cons_ne_nil e es
      have := tiles_lastStop extra 0 s'.time_now htiles hne
      rw [hextra] at this hne
      rw [this, ← htime0]
  · intro t ht
    obtain ⟨i, hilen, hget⟩ := mem_getT s'.tasks t ht
    have hnotq : i ∉ s'.queue := by rw [hq']; exact List.not_mem_nil i
    obtain ⟨h1, h2⟩ := hinv'.2.2 i hilen hnotq
    rw [remOf, hget] at h1
    rw [hget] at h2
    exact ⟨h1, h2⟩
  · rw [hcs0]

/-- C3: for every task list with strictly positive bursts and positive
quantum, the Round-Robin timeline tiles the interval from 0 to the sum
of all bursts with contiguous, non-overlapping, nonempty segments, and
the end of the last segment equals that sum. -/
theorem rr_timeline_covers (tasks : List Task) (q : Int) (hq : 1 ≤ q)
    (hb : ∀ t ∈ tasks, 1 ≤ t.burst) :
    ∃ tl fin m, simulate_rr tasks q = some (tl, fin, m) ∧
      tiles tl 0 ((tasks.map Task.burst).sum) ∧
      (∀ seg ∈ tl, seg.start < seg.stop) ∧
      lastStop tl = (tasks.map Task.burst).sum := by
  obtain ⟨tl, fin, m, hsim, _, _, ht, hp, hl, _, _⟩ := simulate_rr_run tasks q hq hb
  exact ⟨tl, fin, m, hsim, ht, hp, hl⟩

/-- Witness for C3 at the concrete two-task scenario. -/
theorem rr_timeline_covers_witness :
    (1 : Int) ≤ 2 ∧ (∀ t ∈ [taskA5, taskB3], 1 ≤ t.burst) ∧
    (∃ tl fin m, simulate_rr [taskA5, taskB3] 2 = some (tl, fin, m) ∧
      tiles tl 0 (([taskA5, taskB3].map Task.burst).sum) ∧
      (∀ seg ∈ tl, seg.start < seg.stop) ∧
      lastStop tl = ([taskA5, taskB3].map Task.burst).sum) :=
  ⟨by decide, by decide, rr_timeline_covers [taskA5, taskB3] 2 (by decide) (by decide)⟩

/-- The key comparison is total. -/
theorem keyLEP_total (a b : Task) : keyLEP a b ∨ keyLEP b a := by
  rw [keyLEP, keyLEP, taskKeyLE, taskKeyLE]
  simp only [Bool.or_eq_true, Bool.and_eq_true, decide_eq_true_eq]
  omega

/-- The key comparison is transitive. -/
theorem keyLEP_trans (a b c : Task) (h1 : keyLEP a b) (h2 : keyLEP b c) : keyLEP a c := by
  rw [keyLEP, taskKeyLE] at h1 h2 ⊢
  simp only [Bool.or_eq_true, Bool.and_eq_true, decide_eq_true_eq] at h1 h2 ⊢
  omega

/-- Members of an insertion are the inserted task or members of the
original list. -/
theorem mem_insertTask (t u : Task) (l : List Task) (h : u ∈ insertTask t l) :
    u = t ∨ u ∈ l := by
  have := (insertTask_perm t l).mem_iff.mp h
  exact List.mem_cons.mp this

/-- Insertion preserves sortedness by the key comparison. -/
theorem insertTask_pairwise (t : Task) (l : List Task) (h : l.Pairwise keyLEP) :
    (insertTask t l).Pairwise keyLEP := by
  induction l with
  | nil => exact List.pairwise_singleton keyLEP t
  | cons u us ih =>
    rw [insertTask]
    obtain ⟨hu, hus⟩ := List.pairwise_cons.mp h
    by_cases hc : taskKeyLE t u
    · rw [if_pos hc]
      refine List.pairwise_cons.mpr ⟨?_, h⟩
      intro v hv
      rcases List.mem_cons.mp hv with hv | hv
      · rw [hv]; exact hc
      · exact keyLEP_trans t u v hc (hu v hv)
    · rw [if_neg hc]
      refine List.pairwise_cons.mpr ⟨?_, ih hus⟩
      intro v hv
      rcases mem_insertTask t v us hv with hv | hv
      · rw [hv]
        rcases keyLEP_total t u with h1 | h1
        · exact absurd h1 hc
        · exact h1
      · exact hu v hv

/-- The sort produces a list sorted by the key comparison. -/
theorem sortTasks_pairwise (l : List Task) : (sortTasks l).Pairwise keyLEP := by
  induction l with
  | nil => exact List.Pairwise.nil
  | cons t ts ih => exact insertTask_pairwise t (sortTasks ts) ih

/-- With pairwise distinct keys, sortedness by the key comparison is
strict. -/
theorem pairwise_keyLT_of_sorted (l : List Task) (hs : l.Pairwise keyLEP)
    (hn : (l.map taskKey).Nodup) : l.Pairwise keyLT := by
  have hn2 : l.Pairwise (fun a b => taskKey a ≠ taskKey b) := by
    rw [List.Nodup, List.pairwise_map] at hn
    exact hn
  have hcomb := List.Pairwise.and hs hn2
  refine hcomb.imp ?_
  intro a b hab
  obtain ⟨h1, h2⟩ := hab
  rw [keyLEP, taskKeyLE] at h1
  simp only [Bool.or_eq_true, Bool.and_eq_true, decide_eq_true_eq] at h1
  have h3 : a.t_llegada ≠ b.t_llegada ∨ a.pid ≠ b.pid := by
    by_contra hc
    push_neg at hc
    exact h2 (by rw [taskKey, taskKey, hc.1, hc.2])
  rw [keyLT]
  omega

/-- The strict key order is antisymmetric. -/
instance keyLT_antisymm : IsAntisymm Task keyLT :=
  ⟨fun a b h1 h2 => by rw [keyLT] at h1 h2; omega⟩

/-- Two permuted lists both strictly sorted on distinct keys are equal. -/
theorem sortTasks_eq_of_perm (l1 l2 : List Task) (hp : l2.Perm l1)
    (hn : (l1.map taskKey).Nodup) : sortTasks l2 = sortTasks l1 := by
  have hperm : (sortTasks l2).Perm (sortTasks l1) :=
    ((sortTasks_perm l2).trans hp).trans (sortTasks_perm l1).symm
  have hn1 : ((sortTasks l1).map taskKey).Nodup := by
    refine ((sortTasks_perm l1).map taskKey).symm.nodup_iff.mp ?_
    exact hn
  have hn2 : ((sortTasks l2).map taskKey).Nodup := by
    refine (hperm.map taskKey).nodup_iff.mpr hn1
  have hs1 : (sortTasks l1).Pairwise keyLT :=
    pairwise_keyLT_of_sorted (sortTasks l1) (sortTasks_pairwise l1) hn1
  have hs2 : (sortTasks l2).Pairwise keyLT :=
    pairwise_keyLT_of_sorted (sortTasks l2) (sortTasks_pairwise l2) hn2
  exact List.eq_of_perm_of_sorted hperm hs2 hs1

/-- Remaining work of the updated task drops by one. -/
theorem srtfTaskUpd_remaining (s : SrtfState) (i : Nat) :
    (srtfTaskUpd s i).remaining = (getT s.tasks i).remaining - 1 := rfl

/-- Start time of the updated task is set only if it was unset. -/
theorem srtfTaskUpd_start (s : SrtfState) (i : Nat) :
    (srtfTaskUpd s i).start_time =
      if (getT s.tasks i).start_time = none then some s.time_now
      else (getT s.tasks i).start_time := rfl

/-- Finish time of the updated task is recorded exactly when its
remaining work hits zero. -/
theorem srtfTaskUpd_finish (s : SrtfState) (i : Nat) :
    (srtfTaskUpd s i).finish_time =
      if (getT s.tasks i).remaining - 1 = 0 then some (s.time_now + 1)
      else (getT s.tasks i).finish_time := rfl

/-- The update preserves the pid. -/
theorem srtfTaskUpd_pid (s : SrtfState) (i : Nat) :
    (srtfTaskUpd s i).pid = (getT s.tasks i).pid := rfl

/-- Switch counter of the updated task. -/
theorem srtfTaskUpd_cs (s : SrtfState) (i : Nat) :
    (srtfTaskUpd s i).context_switches =
      if srtfSw s i then (getT s.tasks i).context_switches + 1
      else (getT s.tasks i).context_switches := rfl

/-- Membership in the SRTF candidate list characterized by position. -/
theorem mem_srtfCandidates_iff (tasks : List Task) (p : Nat × Task) :
    p ∈ srtfCandidates tasks ↔
      p.1 < tasks.length ∧ getT tasks p.1 = p.2 ∧ 0 < p.2.remaining := by
  rw [srtfCandidates, List.mem_filter]
  rw [List.mem_enum_iff_getElem?]
  constructor
  · rintro ⟨h1, h2⟩
    obtain ⟨hlt, hget⟩ := List.getElem?_eq_some.mp h1
    refine ⟨hlt, ?_, ?_⟩
    · simp [getT, List.getElem?_eq_getElem hlt, hget]
    · exact of_decide_eq_true h2
  · rintro ⟨h1, h2, h3⟩
    refine ⟨?_, decide_eq_true h3⟩
    rw [List.getElem?_eq_some]
    refine ⟨h1, ?_⟩
    rw [← h2]
    simp [getT, List.getElem?_eq_getElem h1]

/-- Positions in an enumeration from n are at least n. -/
theorem mem_enumFrom_le {α : Type} (l : List α) (n : Nat) (y : Nat × α)
    (h : y ∈ l.enumFrom n) : n ≤ y.1 := by
  induction l generalizing n with
  | nil => exact absurd h (List.not_mem_nil y)
  | cons x xs ih =>
    rcases List.mem_cons.mp h with h | h
    · rw [h]
    · exact Nat.le_of_succ_le (ih (n + 1) h)

/-- Positions in an enumeration are strictly increasing. -/
theorem pairwise_fst_lt_enumFrom {α : Type} (l : List α) (n : Nat) :
    (l.enumFrom n).Pairwise (fun a b => a.1 < b.1) := by
  induction l generalizing n with
  | nil => exact List.Pairwise.nil
  | cons x xs ih =>
    refine List.pairwise_cons.mpr ⟨?_, ih (n + 1)⟩
    intro y hy
    exact Nat.lt_of_succ_le (mem_enumFrom_le xs (n + 1) y hy)

/-- Candidate positions are strictly increasing. -/
theorem pairwise_fst_lt_candidates (tasks : List Task) :
    (srtfCandidates tasks).Pairwise (fun a b => a.1 < b.1) := by
  refine List.Pairwise.sublist (List.filter_sublist _) ?_
  exact pairwise_fst_lt_enumFrom tasks 0

/-- Decomposition property of the Python min fold: the result splits the
candidate list into a strict prefix and a suffix it does not exceed. -/
theorem pickMin_spec (ps : List (Nat × Task)) (p : Nat × Task) :
    ∃ pre post, p :: ps = pre ++ (pickMin p ps) :: post ∧
      (∀ y ∈ pre, (pickMin p ps).2.remaining < y.2.remaining) ∧
      (∀ y ∈ p :: ps, (pickMin p ps).2.remaining ≤ y.2.remaining) := by
  induction ps generalizing p with
  | nil =>
    refine ⟨[], [], rfl, ?_, ?_⟩
    · intro y hy
      exact absurd hy (List.not_mem_nil y)
    · intro y hy
      rcases List.mem_cons.mp hy with h | h
      · rw [h]; rfl
      · exact absurd h (List.not_mem_nil y)
  | cons x ps ih =>
    have hfold : pickMin p (x :: ps) =
        pickMin (if x.2.remaining < p.2.remaining then x else p) ps := rfl
    by_cases hc : x.2.remaining < p.2.remaining
    · rw [hfold, if_pos hc]
      obtain ⟨pre, post, hsplit, hpre, hall⟩ := ih x
      have hrx : (pickMin x ps).2.remaining ≤ x.2.remaining :=
        hall x (List.mem_cons_self x ps)
      refine ⟨p :: pre, post, ?_, ?_, ?_⟩
      · rw [List.cons_append, ← hsplit]
      · intro y hy
        rcases List.mem_cons.mp hy with h | h
        · rw [h]; omega
        · exact hpre y h
      · intro y hy
        rcases List.mem_cons.mp hy with h | h
        · rw [h]; omega
        · exact hall y h
    · rw [hfold, if_neg hc]
      obtain ⟨pre, post, hsplit, hpre, hall⟩ := ih p
      have hrp : (pickMin p ps).2.remaining ≤ p.2.remaining :=
        hall p (List.mem_cons_self p ps)
      cases pre with
      | nil =>
        simp only [List.nil_append] at hsplit
        have hhead : pickMin p ps = p := ((List.cons.injEq _ _ _ _).mp hsplit).1.symm
        have htail : ps = post := (List.cons.injEq _ _ _ _).mp hsplit |>.2
        refine ⟨[], x :: ps, ?_, ?_, ?_⟩
        · rw [List.nil_append, hhead]
        · intro y hy
          exact absurd hy (List.not_mem_nil y)
        · intro y hy
          rcases List.mem_cons.mp hy with h | h
          · rw [h, hhead]
          · rcases List.mem_cons.mp h with h2 | h2
            · rw [h2, hhead]; omega
            · exact hall y (List.mem_cons_of_mem p h2)
      | cons p0 pre2 =>
        have hp0 : p0 = p ∧ ps = pre2 ++ pickMin p ps :: post := by
          rw [List.cons_append] at hsplit
          exact ⟨((List.cons.injEq _ _ _ _).mp hsplit).1.symm,
                 ((List.cons.injEq _ _ _ _).mp hsplit).2⟩
        have hp0pre : p0 ∈ p0 :: pre2 := List.mem_cons_self p0 pre2
        have hstrictp : (pickMin p ps).2.remaining < p.2.remaining := by
          have := hpre p0 hp0pre
          rw [hp0.1] at this
          exact this
        refine ⟨p :: x :: pre2, post, ?_, ?_, ?_⟩
        · rw [List.cons_append, List.cons_append]
          conv_lhs => rw [hp0.2]
        · intro y hy
          rcases List.mem_cons.mp hy with h | h
          · rw [h]; exact hstrictp
          · rcases List.mem_cons.mp h with h2 | h2
            · rw [h2]; omega
            · exact hpre y (List.mem_cons_of_mem p0 h2)
        · intro y hy
          rcases List.mem_cons.mp hy with h | h
          · rw [h]; omega
          · rcases List.mem_cons.mp h with h2 | h2
            · rw [h2]; omega
            · exact hall y (List.mem_cons_of_mem p h2)

/-- Specification of the SRTF selection: when some task has positive
remaining work, the selected position carries positive remaining work
that is minimal, and every earlier candidate has strictly larger
remaining work (the first minimum wins). -/
theorem selectIdx_spec (tasks : List Task) (j0 : Nat) (hj0 : j0 < tasks.length)
    (hj0r : 0 < (getT tasks j0).remaining) :
    ∃ i, selectIdx tasks = some i ∧ i < tasks.length ∧ 0 < (getT tasks i).remaining ∧
      (∀ j, j < tasks.length → 0 < (getT tasks j).remaining →
        (getT tasks i).remaining ≤ (getT tasks j).remaining) ∧
      (∀ j, j < i → 0 < (getT tasks j).remaining →
        (getT tasks i).remaining < (getT tasks j).remaining) := by
  have hj0mem : (j0, getT tasks j0) ∈ srtfCandidates tasks :=
    (mem_srtfCandidates_iff tasks (j0, getT tasks j0)).mpr ⟨hj0, rfl, hj0r⟩
  cases hcand : srtfCandidates tasks with
  | nil => rw [hcand] at hj0mem; exact absurd hj0mem (List.not_mem_nil _)
  | cons p ps =>
    obtain ⟨pre, post, hsplit, hpre, hall⟩ := pickMin_spec ps p
    have hrmem : pickMin p ps ∈ srtfCandidates tasks := by
      rw [hcand, hsplit]
      exact List.mem_append.mpr (Or.inr (List.mem_cons_self _ post))
    obtain ⟨hrlen, hrget, hrrem⟩ := (mem_srtfCandidates_iff tasks (pickMin p ps)).mp hrmem
    have hsel : selectIdx tasks = some (pickMin p ps).1 := by
      rw [selectIdx, hcand]
    refine ⟨(pickMin p ps).1, hsel, hrlen, by rw [hrget]; exact hrrem, ?_, ?_⟩
    · intro j hjlen hjr
      have hjmem : (j, getT tasks j) ∈ p :: ps := by
        rw [← hcand]
        exact (mem_srtfCandidates_iff tasks (j, getT tasks j)).mpr ⟨hjlen, rfl, hjr⟩
      have := hall (j, getT tasks j) hjmem
      rw [hrget]
      exact this
    · intro j hji hjr
      have hjlen : j < tasks.length := Nat.lt_trans hji hrlen
      have hjmem : (j, getT tasks j) ∈ p :: ps := by
        rw [← hcand]
        exact (mem_srtfCandidates_iff tasks (j, getT tasks j)).mpr ⟨hjlen, rfl, hjr⟩
      rw [hsplit] at hjmem
      rcases List.mem_append.mp hjmem with h | h
      · have := hpre (j, getT tasks j) h
        rw [hrget]
        exact this
      · rcases List.mem_cons.mp h with h2 | h2
        · exfalso
          have : j = (pickMin p ps).1 := congrArg Prod.fst h2
          omega
        · exfalso
          have hpw : (p :: ps).Pairwise (fun a b => a.1 < b.1) := by
            rw [← hcand]
            exact pairwise_fst_lt_candidates tasks
          rw [hsplit] at hpw
          have h3 := (List.pairwise_append.mp hpw).2.1
          have h4 := (List.pairwise_cons.mp h3).1 (j, getT tasks j) h2
          simp only at h4
          omega

/-- Sum of a function over a list with one position replaced. -/
theorem map_sum_set (f : Task → Nat) (l : List Task) (i : Nat) (a : Task) (h : i < l.length) :
    ((l.set i a).map f).sum + f (getT l i) = (l.map f).sum + f a := by
  induction l generalizing i with
  | nil => simp at h
  | cons t ts ih =>
    cases i with
    | zero =>
      show (f a + (ts.map f).sum) + f t = (f t + (ts.map f).sum) + f a
      omega
    | succ n =>
      have hn : n < ts.length := by simpa using h
      have step := ih n hn
      show (f t + ((ts.set n a).map f).sum) + f (getT ts n)
        = (f t + (ts.map f).sum) + f a
      omega

/-- A zero work potential means no task has positive remaining work. -/
theorem rem_nonpos_of_srtfPot_zero (s : SrtfState) (h : srtfPot s = 0) :
    ∀ j, j < s.tasks.length → (getT s.tasks j).remaining ≤ 0 := by
  intro j hj
  rw [srtfPot] at h
  have hmem : (getT s.tasks j).remaining.toNat ∈ s.tasks.map (fun t => t.remaining.toNat) :=
    List.mem_map_of_mem _ (getT_mem s.tasks j hj)
  have hz := List.sum_eq_zero_iff.mp h _ hmem
  omega

/-- When the loop guard fails, the work potential is zero. -/
theorem srtfPot_zero_of_no_work (s : SrtfState)
    (h : ¬ s.tasks.any (fun t => decide (0 < t.remaining)) = true) : srtfPot s = 0 := by
  rw [srtfPot]
  refine List.sum_eq_zero_iff.mpr ?_
  intro x hx
  obtain ⟨t, ht, hxt⟩ := List.mem_map.mp hx
  by_contra hx0
  exact h (List.any_eq_true.mpr ⟨t, ht, decide_eq_true (by omega)⟩)

/-- Main run lemma of the SRTF loop: under the invariant, with fuel at
least the work potential, the loop preserves the invariant, simulates
exactly srtfPot one-unit segments tiling the elapsed interval, advances
the clock by the potential, leaves no positive remaining work, never
forgets a recorded finish time, and the last recorded finish time equals
the final clock. -/
theorem srtfLoop_run :
    ∀ (fuel : Nat) (s : SrtfState), SrtfInv s → srtfPot s ≤ fuel →
    SrtfInv (srtfLoop fuel s) ∧
    (srtfLoop fuel s).tasks.length = s.tasks.length ∧
    (∃ extra, (srtfLoop fuel s).timeline = s.timeline ++ extra ∧
      extra.length = srtfPot s ∧
      tiles extra s.time_now (srtfLoop fuel s).time_now ∧
      (∀ seg ∈ extra, seg.stop = seg.start + 1)) ∧
    (srtfLoop fuel s).time_now = s.time_now + (srtfPot s : Int) ∧
    (∀ j, j < s.tasks.length → (getT (srtfLoop fuel s).tasks j).remaining ≤ 0) ∧
    (∀ j v, j < s.tasks.length → (getT s.tasks j).finish_time = some v →
      (getT (srtfLoop fuel s).tasks j).finish_time = some v) ∧
    (1 ≤ srtfPot s → ∃ j, j < s.tasks.length ∧
      (getT (srtfLoop fuel s).tasks j).finish_time = some (srtfLoop fuel s).time_now) := by
  intro fuel
  induction fuel with
  | zero =>
    intro s hinv hpot
    have hpot0 : srtfPot s = 0 := by omega
    have hid : srtfLoop 0 s = s := rfl
    rw [hid, hpot0]
    refine ⟨hinv, rfl, ⟨[], by rw [List.append_nil], rfl, rfl, ?_⟩, by simp, ?_, ?_, ?_⟩
    · intro seg hs
      exact absurd hs (List.not_mem_nil seg)
    · exact rem_nonpos_of_srtfPot_zero s hpot0
    · intro j v _ hv
      exact hv
    · intro h
      omega
  | succ n ih =>
    intro s hinv hpot
    by_cases hguard : s.tasks.any (fun t => decide (0 < t.remaining)) = true
    · obtain ⟨t0, ht0, hdec⟩ := List.any_eq_true.mp hguard
      have ht0r : 0 < t0.remaining := of_decide_eq_true hdec
      obtain ⟨j0, hj0len, hj0get⟩ := mem_getT s.tasks t0 ht0
      obtain ⟨i, hsel, hilen, hirem, hmin, hfirst⟩ :=
        selectIdx_spec s.tasks j0 hj0len (by rw [hj0get]; exact ht0r)
      have hstep : srtfLoop (n + 1) s = srtfLoop n (srtfBody s i) := by
        show (if s.tasks.any (fun t => decide (0 < t.remaining)) = true then
            match selectIdx s.tasks with
            | some i => srtfLoop n (srtfBody s i)
            | none => srtfLoop n { s with time_now := s.time_now + 1 }
          else s) = srtfLoop n (srtfBody s i)
        rw [if_pos hguard, hsel]
      set s1 := srtfBody s i with hs1
      have htasks1 : s1.tasks = s.tasks.set i (srtfTaskUpd s i) := rfl
      have hlen1 : s1.tasks.length = s.tasks.length := by
        rw [htasks1]; simp
      have hget1_ne : ∀ j, j ≠ i → getT s1.tasks j = getT s.tasks j := by
        intro j hj
        rw [htasks1]
        exact getT_set_ne s.tasks i j _ (fun hc => hj hc.symm)
      have hget1_self : getT s1.tasks i = srtfTaskUpd s i := by
        rw [htasks1]
        exact getT_set_self s.tasks i _ hilen
      have htime1 : s1.time_now = s.time_now + 1 := rfl
      have htl1 : s1.timeline = s.timeline ++
          [{ pid := (getT s.tasks i).pid, start := s.time_now, stop := s.time_now + 1 }] := rfl
      have hfin_i : (getT s.tasks i).finish_time = none :=
        ((hinv i hilen).2.1).mpr hirem
      have hinv1 : SrtfInv s1 := by
        intro j hj
        rw [hlen1] at hj
        by_cases hji : j = i
        · subst hji
          rw [hget1_self, srtfTaskUpd_remaining, srtfTaskUpd_finish, htime1]
          by_cases hone : (getT s.tasks j).remaining - 1 = 0
          · rw [if_pos hone]
            refine ⟨by omega, ?_, ?_⟩
            · constructor
              · intro hc
                exact absurd hc (by simp)
              · intro hc
                omega
            · intro v hv
              have : v = s.time_now + 1 := by
                injection hv with h
                omega
              omega
          · rw [if_neg hone]
            refine ⟨by omega, ?_, ?_⟩
            · constructor
              · intro _
                omega
              · intro _
                exact hfin_i
            · intro v hv
              rw [hfin_i] at hv
              exact absurd hv (by simp)
        · rw [hget1_ne j hji, htime1]
          obtain ⟨h1, h2, h3⟩ := hinv j hj
          exact ⟨h1, h2, fun v hv => by have := h3 v hv; omega⟩
      have hpot1 : srtfPot s = srtfPot s1 + 1 := by
        have hsum := map_sum_set (fun t => t.remaining.toNat) s.tasks i (srtfTaskUpd s i) hilen
        dsimp only at hsum
        rw [srtfTaskUpd_remaining] at hsum
        have h1 : srtfPot s1
            = ((s.tasks.set i (srtfTaskUpd s i)).map (fun t => t.remaining.toNat)).sum := by
          rw [srtfPot, htasks1]
        have h2 : srtfPot s = (s.tasks.map (fun t => t.remaining.toNat)).sum := rfl
        rw [h1, h2]
        omega
      have hpot1le : srtfPot s1 ≤ n := by omega
      obtain ⟨hinv', hlen', ⟨extra, htl', hext, htiles, hunit⟩, htime', hrem', hstab', hlast'⟩ :=
        ih s1 hinv1 hpot1le
      rw [hstep]
      refine ⟨hinv', by rw [hlen', hlen1], ?_, ?_, ?_, ?_, ?_⟩
      · refine ⟨(TimelineSegment.mk (getT s.tasks i).pid s.time_now (s.time_now + 1)) :: extra,
          ?_, ?_, ?_, ?_⟩
        · rw [htl', htl1]
          simp
        · simp only [List.length_cons]
          omega
        · refine ⟨rfl, ?_⟩
          rw [← htime1]
          exact htiles
        · intro seg hs
          rcases List.mem_cons.mp hs with h | h
          · rw [h]
          · exact hunit seg h
      · rw [htime', htime1, hpot1]
        push_cast
        ring
      · intro j hj
        rw [← hlen1] at hj
        exact hrem' j hj
      · intro j v hj hv
        have hji : j ≠ i := by
          intro hc
          rw [hc, hfin_i] at hv
          exact absurd hv (by simp)
        refine hstab' j v (by rw [hlen1]; exact hj) ?_
        rw [hget1_ne j hji]
        exact hv
      · intro _
        by_cases hp1 : 1 ≤ srtfPot s1
        · obtain ⟨j, hj, hjv⟩ := hlast' hp1
          exact ⟨j, by rw [← hlen1]; exact hj, hjv⟩
        · have hp10 : srtfPot s1 = 0 := by omega
          have hri : (getT s1.tasks i).remaining ≤ 0 := by
            refine rem_nonpos_of_srtfPot_zero s1 hp10 i ?_
            rw [hlen1]
            exact hilen
          rw [hget1_self, srtfTaskUpd_remaining] at hri
          have hone : (getT s.tasks i).remaining - 1 = 0 := by omega
          have hfin1 : (getT s1.tasks i).finish_time = some (s.time_now + 1) := by
            rw [hget1_self, srtfTaskUpd_finish, if_pos hone]
          have hfinal : (getT (srtfLoop n s1).tasks i).finish_time = some (s.time_now + 1) :=
            hstab' i (s.time_now + 1) (by rw [hlen1]; exact hilen) hfin1
          refine ⟨i, hilen, ?_⟩
          rw [hfinal, htime', htime1, hp10]
          norm_num
    · have hpot0 : srtfPot s = 0 := srtfPot_zero_of_no_work s hguard
      have hid : srtfLoop (n + 1) s = s := by
        show (if s.tasks.any (fun t => decide (0 < t.remaining)) = true then
            match selectIdx s.tasks with
            | some i => srtfLoop n (srtfBody s i)
            | none => srtfLoop n { s with time_now := s.time_now + 1 }
          else s) = s
        rw [if_neg hguard]
      rw [hid, hpot0]
      refine ⟨hinv, rfl, ⟨[], by rw [List.append_nil], rfl, rfl, ?_⟩, by simp, ?_, ?_, ?_⟩
      · intro seg hs
        exact absurd hs (List.not_mem_nil seg)
      · exact rem_nonpos_of_srtfPot_zero s hpot0
      · intro j v _ hv
        exact hv
      · intro h
        omega

/-- Bundle lemma for a full SRTF run on positive bursts: the finished
list keeps the input length and holds only completed tasks, the timeline
consists of exactly total-burst one-unit segments tiling the interval
from 0 to the total burst, the last segment ends at the total burst,
every recorded finish time is at most the total burst and some task
finishes exactly there, and the metrics are computed from the finished
data. -/
theorem simulate_srtf_run (tasks : List Task) (hb : ∀ t ∈ tasks, 1 ≤ t.burst) :
    ∃ tl fin m, simulate_srtf tasks = (tl, fin, m) ∧
      fin.length = tasks.length ∧
      tl.length = (tasks.map (fun t => t.burst.toNat)).sum ∧
      tiles tl 0 ((tasks.map Task.burst).sum) ∧
      (∀ seg ∈ tl, seg.stop = seg.start + 1) ∧
      lastStop tl = (tasks.map Task.burst).sum ∧
      (∀ t ∈ fin, t.remaining = 0 ∧ t.finish_time ≠ none) ∧
      (tasks ≠ [] → ∃ t ∈ fin, t.finish_time = some ((tasks.map Task.burst).sum)) ∧
      (∀ t ∈ fin, ∀ v, t.finish_time = some v → v ≤ (tasks.map Task.burst).sum) ∧
      (∃ cs, m = computeMetrics fin tl cs) := by
  set s0 : SrtfState :=
    { tasks := tasks.map resetTask, time_now := 0, timeline := [],
      context_switches := 0, current := none } with hs0
  have hlen0 : s0.tasks.length = tasks.length := by
    rw [hs0]
    exact List.length_map tasks resetTask
  have hmem0 : ∀ u ∈ s0.tasks, ∃ t ∈ tasks, u = resetTask t := by
    intro u hu
    obtain ⟨t, ht, hut⟩ := List.mem_map.mp hu
    exact ⟨t, ht, hut.symm⟩
  have hinv0 : SrtfInv s0 := by
    intro j hj
    obtain ⟨t, ht, hu⟩ := hmem0 (getT s0.tasks j) (getT_mem s0.tasks j hj)
    have hbt := hb t ht
    rw [hu]
    refine ⟨by show (0:Int) ≤ t.burst; omega, ?_, ?_⟩
    · constructor
      · intro _
        show 0 < t.burst
        omega
      · intro _
        rfl
    · intro v hv
      exact absurd hv (by simp [resetTask])
  have hpotnat : srtfPot s0 = (tasks.map (fun t => t.burst.toNat)).sum := by
    rw [srtfPot, hs0]
    show ((tasks.map resetTask).map (fun t => t.remaining.toNat)).sum = _
    rw [List.map_map]
    rfl
  have hpotcast : ((srtfPot s0 : Nat) : Int) = (tasks.map Task.burst).sum := by
    rw [hpotnat]
    exact sum_toNat_cast tasks Task.burst (fun t ht => by have := hb t ht; omega)
  obtain ⟨hinv', hlen', ⟨extra, htl', hext, htiles, hunit⟩, htime', hrem', hstab', hlast'⟩ :=
    srtfLoop_run (srtfPot s0) s0 hinv0 (Nat.le_refl _)
  set sF := srtfLoop (srtfPot s0) s0 with hsF
  have hsim : simulate_srtf tasks =
      (sF.timeline, sF.tasks, computeMetrics sF.tasks sF.timeline sF.context_switches) := rfl
  have htlF : sF.timeline = extra := by
    rw [htl']
    show ([] : List TimelineSegment) ++ extra = extra
    exact List.nil_append extra
  have htimeF : sF.time_now = (tasks.map Task.burst).sum := by
    rw [htime']
    show (0 : Int) + _ = _
    rw [hpotcast]
    ring
  have hfinlen : sF.tasks.length = tasks.length := by rw [hlen', hlen0]
  refine ⟨sF.timeline, sF.tasks, _, hsim, hfinlen, ?_, ?_, ?_, ?_, ?_, ?_, ?_, ?_⟩
  · rw [htlF, hext, hpotnat]
  · rw [htlF]
    have h := htiles
    rw [htimeF] at h
    have h0 : s0.time_now = (0 : Int) := rfl
    rw [h0] at h
    exact h
  · intro seg hs
    rw [htlF] at hs
    exact hunit seg hs
  · rw [htlF]
    cases hx : extra with
    | nil =>
      have h0 : tiles ([] : List TimelineSegment) s0.time_now sF.time_now := hx ▸ htiles
      have heq : s0.time_now = sF.time_now := h0
      rw [lastStop]
      show (0 : Int) = _
      rw [← htimeF, ← heq]
    | cons e es =>
      have hne : extra ≠ [] := by rw [hx]; exact List.cons_ne_nil e es
      have := tiles_lastStop extra s0.time_now sF.time_now htiles hne
      rw [hx] at this hne
      rw [this, htimeF]
  · intro t ht
    obtain ⟨j, hjlen, hget⟩ := mem_getT sF.tasks t ht
    have hj0 : j < s0.tasks.length := by
      rw [hlen0]
      rw [hfinlen] at hjlen
      exact hjlen
    have h1 := hrem' j hj0
    obtain ⟨h2, h3, _⟩ := hinv' j (by rw [hlen']; exact hj0)
    rw [hget] at h1 h2 h3
    refine ⟨by omega, ?_⟩
    intro hc
    have := h3.mp hc
    omega
  · intro hne
    have hpotpos : 1 ≤ srtfPot s0 := by
      cases htasks : tasks with
      | nil => exact absurd htasks hne
      | cons t ts =>
        have hbt : 1 ≤ t.burst := hb t (by rw [htasks]; exact List.mem_cons_self t ts)
        rw [hpotnat, htasks]
        simp only [List.map_cons, List.sum_cons]
        omega
    obtain ⟨j, hjlen, hjv⟩ := hlast' hpotpos
    refine ⟨getT sF.tasks j, getT_mem sF.tasks j (by rw [hlen']; exact hjlen), ?_⟩
    rw [hjv, htimeF]
  · intro t ht v hv
    obtain ⟨j, hjlen, hget⟩ := mem_getT sF.tasks t ht
    obtain ⟨_, _, h3⟩ := hinv' j hjlen
    rw [hget] at h3
    have := h3 v hv
    rw [htimeF] at this
    exact this
  · exact ⟨sF.context_switches, rfl⟩

/-- C4: for every task list with strictly positive bursts, the SRTF run
simulates exactly one one-unit segment per unit of total burst, its final
clock (the end of the last segment) equals the sum of all bursts, every
finish time is at most that sum, and on nonempty input some task finishes
exactly at that sum (the task finishing last attains the maximum). -/
theorem srtf_total_units (tasks : List Task) (hb : ∀ t ∈ tasks, 1 ≤ t.burst) :
    ∃ tl fin m, simulate_srtf tasks = (tl, fin, m) ∧
      tl.length = (tasks.map (fun t => t.burst.toNat)).sum ∧
      (∀ seg ∈ tl, seg.stop = seg.start + 1) ∧
      lastStop tl = (tasks.map Task.burst).sum ∧
      (∀ t ∈ fin, ∀ v, t.finish_time = some v → v ≤ (tasks.map Task.burst).sum) ∧
      (tasks ≠ [] → ∃ t ∈ fin, t.finish_time = some ((tasks.map Task.burst).sum)) := by
  obtain ⟨tl, fin, m, hsim, _, hlen, _, hunit, hlast, _, hmax, hle, _⟩ :=
    simulate_srtf_run tasks hb
  exact ⟨tl, fin, m, hsim, hlen, hunit, hlast, hle, hmax⟩

/-- Witness for C4 at the concrete two-task scenario. -/
theorem srtf_total_units_witness :
    (∀ t ∈ [taskA5, taskB3], 1 ≤ t.burst) ∧
    (∃ tl fin m, simulate_srtf [taskA5, taskB3] = (tl, fin, m) ∧
      tl.length = ([taskA5, taskB3].map (fun t => t.burst.toNat)).sum ∧
      (∀ seg ∈ tl, seg.stop = seg.start + 1) ∧
      lastStop tl = ([taskA5, taskB3].map Task.burst).sum ∧
      (∀ t ∈ fin, ∀ v, t.finish_time = some v → v ≤ ([taskA5, taskB3].map Task.burst).sum) ∧
      ([taskA5, taskB3] ≠ ([] : List Task) →
        ∃ t ∈ fin, t.finish_time = some (([taskA5, taskB3].map Task.burst).sum))) :=
  ⟨by decide, srtf_total_units [taskA5, taskB3] (by decide)⟩

/-- C5: whenever some task has positive remaining work, the SRTF loop
consumes the index returned by selectIdx, and that index carries positive
remaining work, minimal among all tasks with positive remaining work,
with every earlier such task strictly larger (first-encountered wins). -/
theorem srtf_selects_min (s : SrtfState) (j0 : Nat) (hj0 : j0 < s.tasks.length)
    (hj0r : 0 < (getT s.tasks j0).remaining) :
    ∃ i, selectIdx s.tasks = some i ∧
      (∀ fuel, srtfLoop (fuel + 1) s = srtfLoop fuel (srtfBody s i)) ∧
      i < s.tasks.length ∧ 0 < (getT s.tasks i).remaining ∧
      (∀ j, j < s.tasks.length → 0 < (getT s.tasks j).remaining →
        (getT s.tasks i).remaining ≤ (getT s.tasks j).remaining) ∧
      (∀ j, j < i → 0 < (getT s.tasks j).remaining →
        (getT s.tasks i).remaining < (getT s.tasks j).remaining) := by
  obtain ⟨i, hsel, hilen, hirem, hmin, hfirst⟩ := selectIdx_spec s.tasks j0 hj0 hj0r
  have hguard : s.tasks.any (fun t => decide (0 < t.remaining)) = true :=
    List.any_eq_true.mpr ⟨getT s.tasks j0, getT_mem s.tasks j0 hj0, decide_eq_true hj0r⟩
  refine ⟨i, hsel, ?_, hilen, hirem, hmin, hfirst⟩
  intro fuel
  show (if s.tasks.any (fun t => decide (0 < t.remaining)) = true then
      match selectIdx s.tasks with
      | some i => srtfLoop fuel (srtfBody s i)
      | none => srtfLoop fuel { s with time_now := s.time_now + 1 }
    else s) = srtfLoop fuel (srtfBody s i)
  rw [if_pos hguard, hsel]

/-- Witness for C5 at the concrete two-task state. -/
theorem srtf_selects_min_witness :
    (0 < stateB.tasks.length) ∧ (0 < (getT stateB.tasks 0).remaining) ∧
    (∃ i, selectIdx stateB.tasks = some i ∧
      (∀ fuel, srtfLoop (fuel + 1) stateB = srtfLoop fuel (srtfBody stateB i)) ∧
      i < stateB.tasks.length ∧ 0 < (getT stateB.tasks i).remaining ∧
      (∀ j, j < stateB.tasks.length → 0 < (getT stateB.tasks j).remaining →
        (getT stateB.tasks i).remaining ≤ (getT stateB.tasks j).remaining) ∧
      (∀ j, j < i → 0 < (getT stateB.tasks j).remaining →
        (getT stateB.tasks i).remaining < (getT stateB.tasks j).remaining)) :=
  ⟨by decide, by decide, srtf_selects_min stateB 0 (by decide) (by decide)⟩

/-- The Round-Robin simulator is invariant under permutations of the
input when all sort keys are distinct: the sorted ready list is then
uniquely determined. -/
theorem simulate_rr_perm_eq (tasks tasks2 : List Task) (q : Int)
    (hp : tasks2.Perm tasks) (hn : (tasks.map taskKey).Nodup) :
    simulate_rr tasks2 q = simulate_rr tasks q := by
  have hkeys : ∀ l : List Task, (l.map resetTask).map taskKey = l.map taskKey := by
    intro l
    rw [List.map_map]
    rfl
  have hn2 : ((tasks.map resetTask).map taskKey).Nodup := by
    rw [hkeys]
    exact hn
  have hsort : sortTasks (tasks2.map resetTask) = sortTasks (tasks.map resetTask) :=
    sortTasks_eq_of_perm (tasks.map resetTask) (tasks2.map resetTask) (hp.map resetTask) hn2
  rw [simulate_rr, simulate_rr, hsort]

/-- C1 amended: with positive bursts and a positive quantum, the
Round-Robin loop performs exactly the sum over the tasks of the ceiling
of burst over quantum dispatch events (one Timeline Segment each), and
the result, in particular every finish time, is a deterministic function
of the input task multiset and the quantum: any reordering of an input
with pairwise distinct (arrival, pid) keys yields the identical output. -/
theorem rr_dispatch_events (tasks : List Task) (q : Int) (hq : 1 ≤ q)
    (hb : ∀ t ∈ tasks, 1 ≤ t.burst) :
    (∃ tl fin m, simulate_rr tasks q = some (tl, fin, m) ∧
      tl.length = (tasks.map (fun t => dispCount q.toNat t.burst)).sum) ∧
    (∀ tasks2, tasks2.Perm tasks → (tasks.map taskKey).Nodup →
      simulate_rr tasks2 q = simulate_rr tasks q) := by
  constructor
  · obtain ⟨tl, fin, m, hsim, _, hlen, _, _, _, _, _⟩ := simulate_rr_run tasks q hq hb
    exact ⟨tl, fin, m, hsim, hlen⟩
  · intro tasks2 hp hn
    exact simulate_rr_perm_eq tasks tasks2 q hp hn

/-- Witness for C1 amended at the concrete two-task scenario. -/
theorem rr_dispatch_events_witness :
    (1 : Int) ≤ 2 ∧ (∀ t ∈ [taskA5, taskB3], 1 ≤ t.burst) ∧
    ((∃ tl fin m, simulate_rr [taskA5, taskB3] 2 = some (tl, fin, m) ∧
      tl.length = ([taskA5, taskB3].map (fun t => dispCount (2 : Int).toNat t.burst)).sum) ∧
    (∀ tasks2, tasks2.Perm [taskA5, taskB3] → ([taskA5, taskB3].map taskKey).Nodup →
      simulate_rr tasks2 2 = simulate_rr [taskA5, taskB3] 2)) :=
  ⟨by decide, by decide, rr_dispatch_events [taskA5, taskB3] 2 (by decide) (by decide)⟩

/-- C7: within one run of either simulator, on positive bursts (and for
Round Robin a positive quantum), every task state update is monotone:
remaining never increases and never becomes negative, a set start_time
never changes, a set finish_time never changes, the finish time is newly
set only at the update where remaining reaches exactly 0, and at the end
of a full run every task has remaining 0 and a recorded finish time. -/
theorem runtime_state_invariants :
    (∀ (q : Int) (s : RRState) (i : Nat) (rest : List Nat),
      1 ≤ q → i < s.tasks.length → 1 ≤ remOf s i → (getT s.tasks i).finish_time = none →
      (∀ j, remOf (rrBody q s i rest) j ≤ remOf s j) ∧
      (∀ j, 0 ≤ remOf s j → 0 ≤ remOf (rrBody q s i rest) j) ∧
      (∀ j v, (getT s.tasks j).start_time = some v →
        (getT (rrBody q s i rest).tasks j).start_time = some v) ∧
      (∀ j v, (getT s.tasks j).finish_time = some v →
        (getT (rrBody q s i rest).tasks j).finish_time = some v) ∧
      (∀ j, (getT s.tasks j).finish_time = none →
        (getT (rrBody q s i rest).tasks j).finish_time ≠ none →
        remOf (rrBody q s i rest) j = 0)) ∧
    (∀ (tasks : List Task) (q : Int), 1 ≤ q → (∀ t ∈ tasks, 1 ≤ t.burst) →
      ∃ tl fin m, simulate_rr tasks q = some (tl, fin, m) ∧
        ∀ t ∈ fin, t.remaining = 0 ∧ t.finish_time ≠ none) ∧
    (∀ (s : SrtfState) (i : Nat), i < s.tasks.length →
      1 ≤ (getT s.tasks i).remaining → (getT s.tasks i).finish_time = none →
      (∀ j, (getT (srtfBody s i).tasks j).remaining ≤ (getT s.tasks j).remaining) ∧
      (∀ j, 0 ≤ (getT s.tasks j).remaining → 0 ≤ (getT (srtfBody s i).tasks j).remaining) ∧
      (∀ j v, (getT s.tasks j).start_time = some v →
        (getT (srtfBody s i).tasks j).start_time = some v) ∧
      (∀ j v, (getT s.tasks j).finish_time = some v →
        (getT (srtfBody s i).tasks j).finish_time = some v) ∧
      (∀ j, (getT s.tasks j).finish_time = none →
        (getT (srtfBody s i).tasks j).finish_time ≠ none →
        (getT (srtfBody s i).tasks j).remaining = 0)) ∧
    (∀ tasks : List Task, (∀ t ∈ tasks, 1 ≤ t.burst) →
      ∀ t ∈ (simulate_srtf tasks).2.1, t.remaining = 0 ∧ t.finish_time ≠ none) := by
  refine ⟨?_, ?_, ?_, ?_⟩
  · intro q s i rest hq hilen hirem hifin
    by_cases hrq : remOf s i ≤ q
    · obtain ⟨_, _, _, _, hstk⟩ := rrBody_finish_fields q s i rest hirem hrq
      have hne : ∀ j, j ≠ i → getT (rrBody q s i rest).tasks j = getT s.tasks j := by
        intro j hj
        rw [hstk]
        exact getT_set_ne s.tasks i j _ (fun hc => hj hc.symm)
      have hself : getT (rrBody q s i rest).tasks i =
          { getT s.tasks i with
            start_time := if (getT s.tasks i).start_time = none then some s.time_now
              else (getT s.tasks i).start_time,
            remaining := 0,
            finish_time := some (s.time_now + remOf s i) } := by
        rw [hstk]
        exact getT_set_self s.tasks i _ hilen
      have hri : remOf (rrBody q s i rest) i = 0 := by rw [remOf, hself]
      have hsi : (getT (rrBody q s i rest).tasks i).start_time =
          (if (getT s.tasks i).start_time = none then some s.time_now
           else (getT s.tasks i).start_time) := by rw [hself]
      have hfi : (getT (rrBody q s i rest).tasks i).finish_time =
          some (s.time_now + remOf s i) := by rw [hself]
      refine ⟨?_, ?_, ?_, ?_, ?_⟩
      · intro j
        by_cases hji : j = i
        · subst hji
          rw [hri]
          exact le_trans (by omega) hirem
        · rw [remOf, remOf, hne j hji]
      · intro j hj
        by_cases hji : j = i
        · subst hji
          rw [hri]
        · rw [remOf, hne j hji]
          exact hj
      · intro j v hv
        by_cases hji : j = i
        · subst hji
          rw [hsi, hv]
          simp
        · rw [hne j hji]
          exact hv
      · intro j v hv
        by_cases hji : j = i
        · subst hji
          rw [hifin] at hv
          exact absurd hv (by simp)
        · rw [hne j hji]
          exact hv
      · intro j h1 h2
        by_cases hji : j = i
        · subst hji
          exact hri
        · rw [hne j hji] at h2
          exact absurd h1 h2
    · push_neg at hrq
      obtain ⟨_, _, _, _, hstk⟩ := rrBody_preempt_fields q s i rest hq hrq
      have hne : ∀ j, j ≠ i → getT (rrBody q s i rest).tasks j = getT s.tasks j := by
        intro j hj
        rw [hstk]
        exact getT_set_ne s.tasks i j _ (fun hc => hj hc.symm)
      have hself : getT (rrBody q s i rest).tasks i =
          { getT s.tasks i with
            start_time := if (getT s.tasks i).start_time = none then some s.time_now
              else (getT s.tasks i).start_time,
            remaining := remOf s i - q,
            context_switches := (getT s.tasks i).context_switches + 1 } := by
        rw [hstk]
        exact getT_set_self s.tasks i _ hilen
      have hri : remOf (rrBody q s i rest) i = remOf s i - q := by rw [remOf, hself]
      have hsi : (getT (rrBody q s i rest).tasks i).start_time =
          (if (getT s.tasks i).start_time = none then some s.time_now
           else (getT s.tasks i).start_time) := by rw [hself]
      have hfi : (getT (rrBody q s i rest).tasks i).finish_time =
          (getT s.tasks i).finish_time := by rw [hself]
      refine ⟨?_, ?_, ?_, ?_, ?_⟩
      · intro j
        by_cases hji : j = i
        · subst hji
          rw [hri]
          omega
        · rw [remOf, remOf, hne j hji]
      · intro j hj
        by_cases hji : j = i
        · subst hji
          rw [hri]
          omega
        · rw [remOf, hne j hji]
          exact hj
      · intro j v hv
        by_cases hji : j = i
        · subst hji
          rw [hsi, hv]
          simp
        · rw [hne j hji]
          exact hv
      · intro j v hv
        by_cases hji : j = i
        · subst hji
          rw [hfi]
          exact hv
        · rw [hne j hji]
          exact hv
      · intro j h1 h2
        by_cases hji : j = i
        · subst hji
          rw [hfi] at h2
          exact absurd h1 h2
        · rw [hne j hji] at h2
          exact absurd h1 h2
  · intro tasks q hq hb
    obtain ⟨tl, fin, m, hsim, _, _, _, _, _, hdone, _⟩ := simulate_rr_run tasks q hq hb
    exact ⟨tl, fin, m, hsim, hdone⟩
  · intro s i hilen hirem hifin
    have htasks : (srtfBody s i).tasks = s.tasks.set i (srtfTaskUpd s i) := rfl
    have hne : ∀ j, j ≠ i → getT (srtfBody s i).tasks j = getT s.tasks j := by
      intro j hj
      rw [htasks]
      exact getT_set_ne s.tasks i j _ (fun hc => hj hc.symm)
    have hself : getT (srtfBody s i).tasks i = srtfTaskUpd s i := by
      rw [htasks]
      exact getT_set_self s.tasks i _ hilen
    refine ⟨?_, ?_, ?_, ?_, ?_⟩
    · intro j
      by_cases hji : j = i
      · subst hji
        rw [hself, srtfTaskUpd_remaining]
        omega
      · rw [hne j hji]
    · intro j hj
      by_cases hji : j = i
      · subst hji
        rw [hself, srtfTaskUpd_remaining]
        omega
      · rw [hne j hji]
        exact hj
    · intro j v hv
      by_cases hji : j = i
      · subst hji
        rw [hself, srtfTaskUpd_start, hv]
        simp
      · rw [hne j hji]
        exact hv
    · intro j v hv
      by_cases hji : j = i
      · subst hji
        rw [hifin] at hv
        exact absurd hv (by simp)
      · rw [hne j hji]
        exact hv
    · intro j h1 h2
      by_cases hji : j = i
      · subst hji
        rw [hself, srtfTaskUpd_finish, h1] at h2
        rw [hself, srtfTaskUpd_remaining]
        by_cases hz : (getT s.tasks j).remaining - 1 = 0
        · exact hz
        · rw [if_neg hz] at h2
          exact absurd rfl h2
      · rw [hne j hji] at h2
        exact absurd h1 h2
  · intro tasks hb t ht
    obtain ⟨tl, fin, m, hsim, _, _, _, _, _, hdone, _, _, _⟩ := simulate_srtf_run tasks hb
    rw [hsim] at ht
    exact hdone t ht

/-- Witness for C7 applying each part at a concrete input. -/
theorem runtime_state_invariants_witness :
    (∀ j, remOf (rrBody 2 stateR 0 [1]) j ≤ remOf stateR j) ∧
    (∃ tl fin m, simulate_rr [taskA5, taskB3] 2 = some (tl, fin, m) ∧
      ∀ t ∈ fin, t.remaining = 0 ∧ t.finish_time ≠ none) ∧
    (∀ j, (getT (srtfBody stateB 0).tasks j).remaining ≤ (getT stateB.tasks j).remaining) ∧
    (∀ t ∈ (simulate_srtf [taskA5, taskB3]).2.1, t.remaining = 0 ∧ t.finish_time ≠ none) := by
  have h := runtime_state_invariants
  exact ⟨(h.1 2 stateR 0 [1] (by decide) (by decide) (by decide) (by decide)).1,
    h.2.1 [taskA5, taskB3] 2 (by decide) (by decide),
    (h.2.2.1 stateB 0 (by decide) (by decide) (by decide)).1,
    h.2.2.2 [taskA5, taskB3] (by decide)⟩

/-- Casting an integer list sum to the rationals distributes over the
elements. -/
theorem intCast_sum (l : List Int) :
    ((l.sum : Int) : ℚ) = (l.map (fun x : Int => (x : ℚ))).sum := by
  induction l with
  | nil => simp
  | cons x xs ih => simp [ih]

/-- The metrics computation of the source satisfies the metrics formulas
of the spec whenever the total time is nonnegative. -/
theorem computeMetrics_spec (fin : List Task) (tl : List TimelineSegment) (cs : Int)
    (hpos : 0 ≤ lastStop tl) : metricsSpec tl fin (computeMetrics fin tl cs) := by
  refine ⟨?_, ?_, ?_, ?_, ?_⟩
  · intro h0
    simp only [computeMetrics, h0]
    norm_num
  · intro hne
    simp only [computeMetrics, if_pos hne]
    refine ⟨?_, ?_, ?_⟩
    · rw [intCast_sum, List.map_map]
      rfl
    · rw [intCast_sum, List.map_map]
      rfl
    · rw [intCast_sum, List.map_map]
      rfl
  · rfl
  · intro h0
    simp only [computeMetrics]
    rw [if_neg (by omega)]
  · intro hne
    simp only [computeMetrics]
    rw [if_pos (by omega)]

/-- C8: for every completed run of either simulator on positive bursts
(and for Round Robin a positive quantum), the returned metrics satisfy
the spec formulas: per-task waiting, turnaround and response, the
arithmetic means (0 on an empty task set), total time as the end of the
last segment, and throughput with 0 substituted when total time is 0,
raising no division error. -/
theorem metrics_formulas (tasks : List Task) (q : Int) (hq : 1 ≤ q)
    (hb : ∀ t ∈ tasks, 1 ≤ t.burst) :
    (∀ tl fin m, simulate_rr tasks q = some (tl, fin, m) → metricsSpec tl fin m) ∧
    (∀ tl fin m, simulate_srtf tasks = (tl, fin, m) → metricsSpec tl fin m) := by
  have hsum : (0 : Int) ≤ (tasks.map Task.burst).sum := by
    refine List.sum_nonneg ?_
    intro x hx
    obtain ⟨t, ht, hxt⟩ := List.mem_map.mp hx
    have := hb t ht
    omega
  constructor
  · intro tl fin m heq
    obtain ⟨tl2, fin2, m2, hsim, _, _, _, _, hlast, _, hm⟩ := simulate_rr_run tasks q hq hb
    rw [heq] at hsim
    obtain ⟨h1, h2, h3⟩ : tl2 = tl ∧ fin2 = fin ∧ m2 = m := by
      have := Option.some.inj hsim
      exact ⟨congrArg Prod.fst this.symm, congrArg (fun p => p.2.1) this.symm,
        congrArg (fun p => p.2.2) this.symm⟩
    subst h1; subst h2; subst h3
    rw [hm]
    refine computeMetrics_spec _ _ _ ?_
    rw [hlast]
    exact hsum
  · intro tl fin m heq
    obtain ⟨tl2, fin2, m2, hsim, _, _, _, _, hlast, _, _, _, cs, hm⟩ := simulate_srtf_run tasks hb
    rw [heq] at hsim
    obtain ⟨h1, h2, h3⟩ : tl = tl2 ∧ fin = fin2 ∧ m = m2 := by
      exact ⟨congrArg Prod.fst hsim, congrArg (fun p => p.2.1) hsim,
        congrArg (fun p => p.2.2) hsim⟩
    subst h1; subst h2; subst h3
    rw [hm]
    refine computeMetrics_spec _ _ _ ?_
    rw [hlast]
    exact hsum

/-- Witness for C8 at the concrete two-task scenario. -/
theorem metrics_formulas_witness :
    (1 : Int) ≤ 2 ∧ (∀ t ∈ [taskA5, taskB3], 1 ≤ t.burst) ∧
    ((∀ tl fin m, simulate_rr [taskA5, taskB3] 2 = some (tl, fin, m) → metricsSpec tl fin m) ∧
     (∀ tl fin m, simulate_srtf [taskA5, taskB3] = (tl, fin, m) → metricsSpec tl fin m)) :=
  ⟨by decide, by decide, metrics_formulas [taskA5, taskB3] 2 (by decide) (by decide)⟩

/-- On a single-task SRTF run the switch counters never move: the
selection always returns position 0 and the previous pid always matches. -/
theorem srtfLoop_single_cs :
    ∀ (fuel : Nat) (s : SrtfState), s.tasks.length = 1 →
    (s.current = none ∨ s.current = some ((getT s.tasks 0).pid)) →
    (srtfLoop fuel s).context_switches = s.context_switches ∧
    (getT (srtfLoop fuel s).tasks 0).context_switches = (getT s.tasks 0).context_switches ∧
    (srtfLoop fuel s).tasks.length = s.tasks.length := by
  intro fuel
  induction fuel with
  | zero =>
    intro s _ _
    exact ⟨rfl, rfl, rfl⟩
  | succ n ih =>
    intro s hlen hcur
    by_cases hguard : s.tasks.any (fun t => decide (0 < t.remaining)) = true
    · obtain ⟨t0, ht0, hdec⟩ := List.any_eq_true.mp hguard
      obtain ⟨j0, hj0len, hj0get⟩ := mem_getT s.tasks t0 ht0
      obtain ⟨i, hsel, hilen, _, _, _⟩ :=
        selectIdx_spec s.tasks j0 hj0len (by rw [hj0get]; exact of_decide_eq_true hdec)
      have hi0 : i = 0 := by omega
      subst hi0
      have hstep : srtfLoop (n + 1) s = srtfLoop n (srtfBody s 0) := by
        show (if s.tasks.any (fun t => decide (0 < t.remaining)) = true then
            match selectIdx s.tasks with
            | some i => srtfLoop n (srtfBody s i)
            | none => srtfLoop n { s with time_now := s.time_now + 1 }
          else s) = srtfLoop n (srtfBody s 0)
        rw [if_pos hguard, hsel]
      have hsw : srtfSw s 0 = false := by
        rcases hcur with h | h
        · simp [srtfSw, h]
        · simp [srtfSw, h]
      have hlen0 : (0 : Nat) < s.tasks.length := by omega
      have hself : getT (srtfBody s 0).tasks 0 = srtfTaskUpd s 0 :=
        getT_set_self s.tasks 0 _ hlen0
      have hcs1 : (srtfBody s 0).context_switches = s.context_switches := by
        show (if srtfSw s 0 then s.context_switches + 1 else s.context_switches)
          = s.context_switches
        rw [hsw]
        simp
      have htcs1 : (getT (srtfBody s 0).tasks 0).context_switches
          = (getT s.tasks 0).context_switches := by
        rw [hself, srtfTaskUpd_cs, hsw]
        simp
      have hlen1 : (srtfBody s 0).tasks.length = 1 := by
        show (s.tasks.set 0 (srtfTaskUpd s 0)).length = 1
        rw [List.length_set]
        exact hlen
      have hcur1 : (srtfBody s 0).current = none ∨
          (srtfBody s 0).current = some ((getT (srtfBody s 0).tasks 0).pid) := by
        right
        show some ((getT s.tasks 0).pid) = some ((getT (srtfBody s 0).tasks 0).pid)
        rw [hself, srtfTaskUpd_pid]
      obtain ⟨h1, h2, h3⟩ := ih (srtfBody s 0) hlen1 hcur1
      rw [hstep]
      exact ⟨h1.trans hcs1, h2.trans htcs1, by rw [h3, hlen1, hlen]⟩
    · have hid : srtfLoop (n + 1) s = s := by
        show (if s.tasks.any (fun t => decide (0 < t.remaining)) = true then
            match selectIdx s.tasks with
            | some i => srtfLoop n (srtfBody s i)
            | none => srtfLoop n { s with time_now := s.time_now + 1 }
          else s) = s
        rw [if_neg hguard]
      rw [hid]
      exact ⟨rfl, rfl, rfl⟩

/-- One Round-Robin iteration moves the per-task counter of the dequeued
task and the global counter in lockstep, and the new queue is the rest
possibly extended by the dequeued index. -/
theorem rrBody_cs_balance (q : Int) (s : RRState) (i : Nat) (rest : List Nat)
    (hilen : i < s.tasks.length) :
    ((getT (rrBody q s i rest).tasks i).context_switches - (getT s.tasks i).context_switches
      = (rrBody q s i rest).context_switches - s.context_switches) ∧
    ((rrBody q s i rest).queue = rest ∨ (rrBody q s i rest).queue = rest ++ [i]) ∧
    (rrBody q s i rest).tasks.length = s.tasks.length := by
  rw [rrBody]
  dsimp only
  split
  · refine ⟨?_, Or.inl rfl, by simp⟩
    rw [getT_set_self s.tasks i _ hilen]
    simp
  · refine ⟨?_, Or.inr rfl, by simp⟩
    rw [getT_set_self s.tasks i _ hilen]
    simp

/-- On a single-task Round-Robin run the per-task counter of the lone
task tracks the global counter. -/
theorem rrLoop_single_cs (q : Int) :
    ∀ (fuel : Nat) (s s' : RRState), s.tasks.length = 1 → (∀ j ∈ s.queue, j = 0) →
    (getT s.tasks 0).context_switches = s.context_switches →
    rrLoop q fuel s = some s' →
    (getT s'.tasks 0).context_switches = s'.context_switches := by
  intro fuel
  induction fuel with
  | zero =>
    intro s s' hlen hq0 heq hrun
    cases hqueue : s.queue with
    | nil =>
      rw [rrLoop_empty_queue q 0 s hqueue] at hrun
      rw [← Option.some.inj hrun]
      exact heq
    | cons i rest =>
      have hnone : rrLoop q 0 s = none := by
        obtain ⟨tasks, queue, time, tl, cs⟩ := s
        simp only at hqueue
        subst hqueue
        rfl
      rw [hnone] at hrun
      exact absurd hrun (by simp)
  | succ n ih =>
    intro s s' hlen hq0 heq hrun
    cases hqueue : s.queue with
    | nil =>
      rw [rrLoop_empty_queue q (n + 1) s hqueue] at hrun
      rw [← Option.some.inj hrun]
      exact heq
    | cons i rest =>
      have hi : i = 0 := hq0 i (by rw [hqueue]; exact List.mem_cons_self i rest)
      subst hi
      have hrest : ∀ j ∈ rest, j = 0 := fun j hj =>
        hq0 j (by rw [hqueue]; exact List.mem_cons_of_mem 0 hj)
      have hstep : rrLoop q (n + 1) s = rrLoop q n (rrBody q s 0 rest) := by
        obtain ⟨tasks, queue, time, tl, cs⟩ := s
        simp only at hqueue
        subst hqueue
        rfl
      rw [hstep] at hrun
      obtain ⟨hbal, hqcase, hblen⟩ := rrBody_cs_balance q s 0 rest (by omega)
      refine ih (rrBody q s 0 rest) s' (by rw [hblen, hlen]) ?_ (by omega) hrun
      intro j hj
      rcases hqcase with hcq | hcq
      · exact hrest j (by rw [← hcq]; exact hj)
      · rw [hcq] at hj
        rcases List.mem_append.mp hj with h | h
        · exact hrest j h
        · exact List.mem_singleton.mp h

/-- Full single-task Round-Robin run: the global switch counter and the
per-task counter of the lone task both equal the number of dispatches
minus one. -/
theorem rr_single (t : Task) (q : Int) (hq : 1 ≤ q) (hb : 1 ≤ t.burst) :
    ∃ tl fin m, simulate_rr [t] q = some (tl, fin, m) ∧
      m.context_switches = (dispCount q.toNat t.burst : Int) - 1 ∧
      ∀ u ∈ fin, u.context_switches = (dispCount q.toNat t.burst : Int) - 1 := by
  set s0 : RRState :=
    { tasks := [resetTask t], queue := [0], time_now := 0,
      timeline := [], context_switches := 0 } with hs0
  have hrem0 : remOf s0 0 = t.burst := rfl
  have hinv0 : RRInv s0 := by
    refine ⟨List.nodup_singleton 0, ?_, ?_⟩
    · intro i hi
      have h0 : i = 0 := List.mem_singleton.mp hi
      subst h0
      exact ⟨by simp, by rw [hrem0]; exact hb, rfl⟩
    · intro i hilen hout
      have h0 : i = 0 := by
        have : s0.tasks.length = 1 := rfl
        omega
      subst h0
      exact absurd (List.mem_singleton.mpr rfl) hout
  have hpot0 : rrPot q.toNat s0 = dispCount q.toNat t.burst := by
    show (List.map (fun i => dispCount q.toNat (remOf s0 i)) [0]).sum = _
    simp only [List.map_cons, List.map_nil, List.sum_cons, List.sum_nil, hrem0]
    omega
  set fuel := (([resetTask t] : List Task).map (fun u => u.remaining.toNat + 1)).sum with hfuel
  have hfuelle : rrPot q.toNat s0 ≤ fuel := by
    rw [hpot0, hfuel]
    have hle := dispCount_le q.toNat t.burst (by omega)
    simp only [List.map_cons, List.map_nil, List.sum_cons, List.sum_nil]
    show dispCount q.toNat t.burst ≤ (resetTask t).remaining.toNat + 1 + 0
    have hrt : (resetTask t).remaining = t.burst := rfl
    rw [hrt]
    omega
  obtain ⟨s', hrun, hq', hinv', hlen', _, _, hcs'⟩ :=
    rrLoop_run q hq fuel s0 hinv0 hfuelle
  have hsim : simulate_rr [t] q =
      some (s'.timeline, s'.tasks, computeMetrics s'.tasks s'.timeline s'.context_switches) := by
    rw [simulate_rr]
    rw [show sortTasks (List.map resetTask [t]) = [resetTask t] from rfl]
    rw [show List.range ([resetTask t] : List Task).length = [0] from rfl]
    rw [← hfuel, ← hs0, hrun]
  have hcsval : s'.context_switches = (dispCount q.toNat t.burst : Int) - 1 := by
    rw [hcs', hpot0]
    show (0 : Int) + _ - (([0] : List Nat).length : Int) = _
    simp
  have htcs : (getT s'.tasks 0).context_switches = s'.context_switches := by
    refine rrLoop_single_cs q fuel s0 s' rfl ?_ rfl hrun
    intro j hj
    exact List.mem_singleton.mp hj
  refine ⟨s'.timeline, s'.tasks, _, hsim, ?_, ?_⟩
  · show s'.context_switches = _
    exact hcsval
  · intro u hu
    obtain ⟨j, hjlen, hget⟩ := mem_getT s'.tasks u hu
    have hj0 : j = 0 := by
      have h1 : s0.tasks.length = 1 := rfl
      omega
    subst hj0
    rw [← hget, htcs]
    exact hcsval

/-- C10 amended: in SRTF the very first dispatch (previous task absent)
never increments the global counter, and in Round Robin the dispatch on
which a task finishes never increments it; a single-task SRTF run records
0 global switches and a per-task count of 0, while a single-task
Round-Robin run records ceiling of burst over quantum minus 1 on both
counters (0 exactly when the burst fits one quantum). -/
theorem switch_counting :
    (∀ (s : SrtfState) (i : Nat), s.current = none →
      (srtfBody s i).context_switches = s.context_switches) ∧
    (∀ (q : Int) (s : RRState) (i : Nat) (rest : List Nat),
      1 ≤ remOf s i → remOf s i ≤ q →
      (rrBody q s i rest).context_switches = s.context_switches) ∧
    (∀ t : Task, 1 ≤ t.burst →
      (simulate_srtf [t]).2.2.context_switches = 0 ∧
      ∀ u ∈ (simulate_srtf [t]).2.1, u.context_switches = 0) ∧
    (∀ (t : Task) (q : Int), 1 ≤ q → 1 ≤ t.burst →
      ∃ tl fin m, simulate_rr [t] q = some (tl, fin, m) ∧
        m.context_switches = (dispCount q.toNat t.burst : Int) - 1 ∧
        ∀ u ∈ fin, u.context_switches = (dispCount q.toNat t.burst : Int) - 1) := by
  refine ⟨?_, ?_, ?_, ?_⟩
  · intro s i hnone
    have hsw : srtfSw s i = false := by simp [srtfSw, hnone]
    show (if srtfSw s i then s.context_switches + 1 else s.context_switches)
      = s.context_switches
    rw [hsw]
    simp
  · intro q s i rest h1 h2
    exact (rrBody_finish_fields q s i rest h1 h2).2.2.2.1
  · intro t hb
    set s0 : SrtfState :=
      { tasks := [resetTask t], time_now := 0, timeline := [],
        context_switches := 0, current := none } with hs0
    set fuel := (([resetTask t] : List Task).map (fun u => u.remaining.toNat)).sum with hfuel
    have hsim : simulate_srtf [t] =
        ((srtfLoop fuel s0).timeline, (srtfLoop fuel s0).tasks,
          computeMetrics (srtfLoop fuel s0).tasks (srtfLoop fuel s0).timeline
            (srtfLoop fuel s0).context_switches) := rfl
    obtain ⟨h1, h2, h3⟩ := srtfLoop_single_cs fuel s0 rfl (Or.inl rfl)
    constructor
    · rw [hsim]
      show (srtfLoop fuel s0).context_switches = 0
      rw [h1]
    · intro u hu
      rw [hsim] at hu
      obtain ⟨j, hjlen, hget⟩ := mem_getT (srtfLoop fuel s0).tasks u hu
      have hj0 : j = 0 := by
        rw [h3] at hjlen
        have hone : s0.tasks.length = 1 := rfl
        omega
      subst hj0
      rw [← hget, h2]
      rfl
  · intro t q hq hb
    exact rr_single t q hq hb

/-- Witness for C10 amended applying each part at a concrete input. -/
theorem switch_counting_witness :
    (srtfBody stateB 0).context_switches = stateB.context_switches ∧
    (rrBody 5 stateR 0 [1]).context_switches = stateR.context_switches ∧
    ((simulate_srtf [taskB3]).2.2.context_switches = 0 ∧
      ∀ u ∈ (simulate_srtf [taskB3]).2.1, u.context_switches = 0) ∧
    (∃ tl fin m, simulate_rr [taskB3] 2 = some (tl, fin, m) ∧
      m.context_switches = (dispCount (2 : Int).toNat taskB3.burst : Int) - 1 ∧
      ∀ u ∈ fin, u.context_switches = (dispCount (2 : Int).toNat taskB3.burst : Int) - 1) := by
  have h := switch_counting
  exact ⟨h.1 stateB 0 (by decide), h.2.1 5 stateR 0 [1] (by decide) (by decide),
    h.2.2.1 taskB3 (by decide), h.2.2.2 taskB3 2 (by decide) (by decide)⟩

/-- A store update is invisible at other addresses. -/
theorem writeH_ne (h : Heap) (a : Nat) (t : Task) (x : Nat) (hx : x ≠ a) :
    (writeH h a t).mem x = h.mem x := by
  show (if x = a then t else h.mem x) = h.mem x
  rw [if_neg hx]

/-- The deep copy touches no existing object, allocates only fresh
addresses and only grows the allocation bound. -/
theorem allocCopies_frame (addrs : List Nat) : ∀ h : Heap,
    (∀ x, x < h.next → (allocCopies h addrs).1.mem x = h.mem x) ∧
    (∀ a ∈ (allocCopies h addrs).2, h.next ≤ a) ∧
    h.next ≤ (allocCopies h addrs).1.next := by
  induction addrs with
  | nil =>
    intro h
    exact ⟨fun x _ => rfl, fun a ha => absurd ha (List.not_mem_nil a), Nat.le_refl _⟩
  | cons a as ih =>
    intro h
    have hexp : allocCopies h (a :: as)
        = ((allocCopies (allocH h (resetTask (h.mem a))).1 as).1,
           h.next :: (allocCopies (allocH h (resetTask (h.mem a))).1 as).2) := rfl
    obtain ⟨ihmem, ihfresh, ihnext⟩ := ih (allocH h (resetTask (h.mem a))).1
    have hnext1 : (allocH h (resetTask (h.mem a))).1.next = h.next + 1 := rfl
    refine ⟨?_, ?_, ?_⟩
    · intro x hx
      rw [hexp]
      have h1 : (allocCopies (allocH h (resetTask (h.mem a))).1 as).1.mem x
          = (allocH h (resetTask (h.mem a))).1.mem x := by
        refine ihmem x ?_
        rw [hnext1]
        omega
      rw [h1]
      show (if x = h.next then resetTask (h.mem a) else h.mem x) = h.mem x
      rw [if_neg (by omega)]
    · intro b hb
      rw [hexp] at hb
      rcases List.mem_cons.mp hb with h1 | h1
      · omega
      · have := ihfresh b h1
        rw [hnext1] at this
        omega
    · rw [hexp]
      dsimp only
      have := ihnext
      rw [hnext1] at this
      omega

/-- The heap-level Round-Robin loop never writes an address outside its
queue. -/
theorem rrLoopH_frame (q : Int) : ∀ (fuel : Nat) (s : RRHState) (x : Nat),
    (∀ a ∈ s.queue, a ≠ x) → (rrLoopH q fuel s).heap.mem x = s.heap.mem x := by
  intro fuel
  induction fuel with
  | zero =>
    intro s x _
    obtain ⟨heap, queue, time, tl, cs⟩ := s
    cases queue <;> rfl
  | succ n ih =>
    intro s x hq
    cases hqueue : s.queue with
    | nil =>
      obtain ⟨heap, queue, time, tl, cs⟩ := s
      simp only at hqueue
      subst hqueue
      rfl
    | cons a rest =>
      have hax : a ≠ x := hq a (by rw [hqueue]; exact List.mem_cons_self a rest)
      have hrest : ∀ b ∈ rest, b ≠ x := fun b hb =>
        hq b (by rw [hqueue]; exact List.mem_cons_of_mem a hb)
      have hstep : rrLoopH q (n + 1) s = rrLoopH q n (rrBodyH q s a rest) := by
        obtain ⟨heap, queue, time, tl, cs⟩ := s
        simp only at hqueue
        subst hqueue
        rfl
      rw [hstep]
      have hbody_mem : (rrBodyH q s a rest).heap.mem x = s.heap.mem x := by
        rw [rrBodyH]
        dsimp only
        split
        · exact writeH_ne s.heap a _ x (Ne.symm hax)
        · exact writeH_ne s.heap a _ x (Ne.symm hax)
      have hbody_queue : ∀ b ∈ (rrBodyH q s a rest).queue, b ≠ x := by
        rw [rrBodyH]
        dsimp only
        split
        · intro b hb
          exact hrest b hb
        · intro b hb
          rcases List.mem_append.mp hb with h1 | h1
          · exact hrest b h1
          · rw [List.mem_singleton.mp h1]
            exact hax
      rw [ih (rrBodyH q s a rest) x hbody_queue, hbody_mem]

/-- The fold of the heap-level SRTF selection stays within its inputs. -/
theorem foldl_minAddr_mem (h : Heap) : ∀ (as : List Nat) (a : Nat),
    (as.foldl (fun best x =>
      if (h.mem x).remaining < (h.mem best).remaining then x else best) a) ∈ a :: as := by
  intro as
  induction as with
  | nil =>
    intro a
    exact List.mem_singleton.mpr rfl
  | cons x as ih =>
    intro a
    show (as.foldl (fun best y =>
        if (h.mem y).remaining < (h.mem best).remaining then y else best)
      (if (h.mem x).remaining < (h.mem a).remaining then x else a)) ∈ a :: x :: as
    by_cases hc : (h.mem x).remaining < (h.mem a).remaining
    · rw [if_pos hc]
      exact List.mem_cons_of_mem a (ih x)
    · rw [if_neg hc]
      rcases List.mem_cons.mp (ih a) with h1 | h1
      · rw [h1]
        exact List.mem_cons_self a (x :: as)
      · exact List.mem_cons_of_mem a (List.mem_cons_of_mem x h1)

/-- The heap-level SRTF selection returns an address of its list. -/
theorem selectAddr_mem (h : Heap) (addrs : List Nat) (a : Nat)
    (hsel : selectAddr h addrs = some a) : a ∈ addrs := by
  rw [selectAddr] at hsel
  cases hf : addrs.filter (fun b => decide (0 < (h.mem b).remaining)) with
  | nil => rw [hf] at hsel; exact absurd hsel (by simp)
  | cons b bs =>
    rw [hf] at hsel
    have ha := Option.some.inj hsel
    have hmem : a ∈ b :: bs := by
      rw [← ha]
      exact foldl_minAddr_mem h bs b
    have : a ∈ addrs.filter (fun c => decide (0 < (h.mem c).remaining)) := by
      rw [hf]
      exact hmem
    exact List.mem_of_mem_filter this

/-- The heap-level SRTF loop never writes an address outside its fixed
ready list. -/
theorem srtfLoopH_frame : ∀ (fuel : Nat) (s : SrtfHState) (x : Nat),
    (∀ a ∈ s.addrs, a ≠ x) → (srtfLoopH fuel s).heap.mem x = s.heap.mem x := by
  intro fuel
  induction fuel with
  | zero =>
    intro s x _
    rfl
  | succ n ih =>
    intro s x hq
    by_cases hguard : s.addrs.any (fun a => decide (0 < (s.heap.mem a).remaining)) = true
    · cases hsel : selectAddr s.heap s.addrs with
      | some a =>
        have hstep : srtfLoopH (n + 1) s = srtfLoopH n (srtfBodyH s a) := by
          show (if s.addrs.any (fun a => decide (0 < (s.heap.mem a).remaining)) = true then
              match selectAddr s.heap s.addrs with
              | some a => srtfLoopH n (srtfBodyH s a)
              | none => srtfLoopH n { s with time_now := s.time_now + 1 }
            else s) = srtfLoopH n (srtfBodyH s a)
          rw [if_pos hguard, hsel]
        have hax : a ≠ x := hq a (selectAddr_mem s.heap s.addrs a hsel)
        have hbody_mem : (srtfBodyH s a).heap.mem x = s.heap.mem x :=
          writeH_ne s.heap a _ x (Ne.symm hax)
        have hbody_addrs : (srtfBodyH s a).addrs = s.addrs := rfl
        rw [hstep, ih (srtfBodyH s a) x (by rw [hbody_addrs]; exact hq), hbody_mem]
      | none =>
        have hstep : srtfLoopH (n + 1) s = srtfLoopH n { s with time_now := s.time_now + 1 } := by
          show (if s.addrs.any (fun a => decide (0 < (s.heap.mem a).remaining)) = true then
              match selectAddr s.heap s.addrs with
              | some a => srtfLoopH n (srtfBodyH s a)
              | none => srtfLoopH n { s with time_now := s.time_now + 1 }
            else s) = srtfLoopH n { s with time_now := s.time_now + 1 }
          rw [if_pos hguard, hsel]
        rw [hstep, ih { s with time_now := s.time_now + 1 } x hq]
    · have hid : srtfLoopH (n + 1) s = s := by
        show (if s.addrs.any (fun a => decide (0 < (s.heap.mem a).remaining)) = true then
            match selectAddr s.heap s.addrs with
            | some a => srtfLoopH n (srtfBodyH s a)
            | none => srtfLoopH n { s with time_now := s.time_now + 1 }
          else s) = s
        rw [if_neg hguard]
      rw [hid]

/-- Sorted addresses are members of the input address list. -/
theorem mem_sortAddrs (h : Heap) : ∀ (l : List Nat) (a : Nat),
    a ∈ sortAddrs h l → a ∈ l := by
  have hins : ∀ (l : List Nat) (b a : Nat), a ∈ insertAddr h b l → a ∈ b :: l := by
    intro l
    induction l with
    | nil =>
      intro b a ha
      exact ha
    | cons c cs ih =>
      intro b a ha
      rw [insertAddr] at ha
      by_cases hc : taskKeyLE (h.mem b) (h.mem c)
      · rw [if_pos hc] at ha
        exact ha
      · rw [if_neg hc] at ha
        rcases List.mem_cons.mp ha with h1 | h1
        · rw [h1]
          exact List.mem_cons_of_mem b (List.mem_cons_self c cs)
        · rcases List.mem_cons.mp (ih b a h1) with h2 | h2
          · rw [h2]
            exact List.mem_cons_self b (c :: cs)
          · exact List.mem_cons_of_mem b (List.mem_cons_of_mem c h2)
  intro l
  induction l with
  | nil =>
    intro a ha
    exact ha
  | cons b bs ih =>
    intro a ha
    rcases List.mem_cons.mp (hins (sortAddrs h bs) b a ha) with h1 | h1
    · rw [h1]
      exact List.mem_cons_self b bs
    · exact List.mem_cons_of_mem b (ih a h1)

/-- C9: neither simulator mutates any object of the input list: after a
heap-level run of either simulator, every input address holds exactly the
task value it held before the call; all mutation happens on the fresh
deep copies. -/
theorem simulators_no_input_mutation (h : Heap) (addrs : List Nat) (q : Int) (a : Nat)
    (hvalid : ∀ b ∈ addrs, b < h.next) (ha : a ∈ addrs) :
    (simulate_rr_heap h addrs q).1.mem a = h.mem a ∧
    (simulate_srtf_heap h addrs).1.mem a = h.mem a := by
  obtain ⟨hmem, hfresh, _⟩ := allocCopies_frame addrs h
  have halt : a < h.next := hvalid a ha
  constructor
  · show (rrLoopH q _ (RRHState.mk (allocCopies h addrs).1
      (sortAddrs (allocCopies h addrs).1 (allocCopies h addrs).2) 0 [] 0)).heap.mem a
      = h.mem a
    rw [rrLoopH_frame q _ _ a ?_]
    · exact hmem a halt
    · intro b hb
      have hb2 : b ∈ (allocCopies h addrs).2 :=
        mem_sortAddrs (allocCopies h addrs).1 (allocCopies h addrs).2 b hb
      have := hfresh b hb2
      omega
  · show (srtfLoopH _ (SrtfHState.mk (allocCopies h addrs).1
      (allocCopies h addrs).2 0 [] 0 none)).heap.mem a = h.mem a
    rw [srtfLoopH_frame _ _ a ?_]
    · exact hmem a halt
    · intro b hb
      have := hfresh b hb
      omega

/-- Witness for C9 at a concrete two-object heap. -/
theorem simulators_no_input_mutation_witness :
    (∀ b ∈ [0, 1], b < heapW.next) ∧ (0 ∈ ([0, 1] : List Nat)) ∧
    ((simulate_rr_heap heapW [0, 1] 2).1.mem 0 = heapW.mem 0 ∧
     (simulate_srtf_heap heapW [0, 1]).1.mem 0 = heapW.mem 0) :=
  ⟨by decide, by decide, simulators_no_input_mutation heapW [0, 1] 2 0 (by decide) (by decide)⟩

end Sched
